import Mathlib

/-!
Verification of the dependency-round scheduler of `epicPlanner.py` (JiraTools).

Python strings are embedded as `List Char`; Jira issues and "blocks" links as
explicit structures; the `networkx.DiGraph` as a pair of insertion-ordered lists
(node keys with their optional `status` attribute, and edges).  The library
routines the script calls (`networkx.topological_sort`, which yields generation
by generation from `topological_generations`, and `networkx.transitive_closure`,
which adds an edge `(u, v)` for every node `v` reachable from `u`) are embedded
from the library's implementation.  `topological_generations` is written with an
explicit fuel argument so that it stays structurally recursive; the fuel used by
the entry point is proved sufficient (the `outOfFuel` branch is unreachable).
-/

namespace JiraTools

/-! ### jiraToolsConfig.py -/

/-- `jiraToolsConfig.statusIsDone`: the list of statuses counted as done. -/
def doneStatuses : List String := ["closed", "deployed", "done", "resolved"]

/-- Python `str.lower()`, character by character (the two agree on the ASCII
strings compared here: status names and the link type name "blocks"). -/
def pyLower (s : String) : String := String.mk (s.data.map Char.toLower)

/-- `jiraToolsConfig.statusIsDone(check_status)`: lowercased status is one of
`doneStatuses`. -/
def statusIsDone (check_status : String) : Bool :=
  doneStatuses.contains (pyLower check_status)

/-! ### colorama escape codes -/

/-- The ASCII escape character starting every ANSI escape sequence. -/
def ESC : Char := Char.ofNat 27

/-- `colorama.Fore.GREEN` = `"\x1b[32m"`. -/
def foreGREEN : List Char := [ESC, '[', '3', '2', 'm']

/-- `colorama.Fore.RED` = `"\x1b[31m"`. -/
def foreRED : List Char := [ESC, '[', '3', '1', 'm']

/-- `colorama.Style.RESET_ALL` = `"\x1b[0m"`. -/
def styleRESET : List Char := [ESC, '[', '0', 'm']

/-! ### The dependency graph (networkx.DiGraph) -/

/-- A `networkx.DiGraph` as built by `epicPlanner.py`: node keys in insertion
order, each with its optional `status` attribute, and the edge list in
insertion order.  `add_node`/`add_edge` below keep keys and edges duplicate
free, as the library does. -/
structure Graph where
  nodes : List (String × Option String)
  edges : List (String × String)
deriving DecidableEq

/-- The node keys of the graph, in insertion order. -/
def nodeKeys (g : Graph) : List String := g.nodes.map Prod.fst

/-- `G.add_node(k)` as performed implicitly by `add_edge`: append the node with
no `status` attribute if missing, otherwise leave the graph unchanged. -/
def ensureNode (g : Graph) (k : String) : Graph :=
  if k ∈ nodeKeys g then g else { g with nodes := g.nodes ++ [(k, none)] }

/-- `G.add_node(k, status=s)` (epicPlanner.py line 52): update the `status`
attribute if the node exists, else append it. -/
def addNode (g : Graph) (k : String) (status : String) : Graph :=
  if k ∈ nodeKeys g then
    { g with nodes := g.nodes.map (fun p => if p.1 = k then (p.1, some status) else p) }
  else
    { g with nodes := g.nodes ++ [(k, some status)] }

/-- `G.add_edge(u, v)` (epicPlanner.py line 56): add missing endpoints (without
a `status` attribute) and append the edge unless it is already present. -/
def addEdge (g : Graph) (u v : String) : Graph :=
  let g1 := ensureNode (ensureNode g u) v
  if (u, v) ∈ g1.edges then g1 else { g1 with edges := g1.edges ++ [(u, v)] }

/-- One entry of `issue.fields.issuelinks`: the link type name and, when the
link has a truthy `outwardIssue`, that issue's key. -/
structure IssueLink where
  typeName : String
  outwardIssue : Option String

/-- One issue returned by the JQL search: key, status name and issue links. -/
structure Issue where
  key : String
  status : String
  issuelinks : List IssueLink

/-- The inner loop of epicPlanner.py lines 53-56: for each link whose type is
"blocks" (case-insensitively) with a truthy `outwardIssue` whose key differs
from the issue's own key, add the edge `issue_key -> outward key`. -/
def addIssueLinks (g : Graph) (issueKey : String) (links : List IssueLink) : Graph :=
  links.foldl (fun g link =>
    if pyLower link.typeName = "blocks" then
      match link.outwardIssue with
      | some k => if k ≠ issueKey then addEdge g issueKey k else g
      | none => g
    else g) g

/-- epicPlanner.py lines 49-56: build the dependency graph from the issues. -/
def buildGraph (issues : List Issue) : Graph :=
  issues.foldl (fun g issue =>
    addIssueLinks (addNode g issue.key issue.status) issue.key issue.issuelinks)
    ⟨[], []⟩

/-- `graph.predecessors(v)`: sources of the in-edges of `v`, in insertion
order. -/
def predecessors (g : Graph) (v : String) : List String :=
  (g.edges.filter (fun e => decide (e.2 = v))).map Prod.fst

/-- `graph.neighbors(u)` on a DiGraph: targets of the out-edges of `u`, in
insertion order. -/
def successors (g : Graph) (u : String) : List String :=
  (g.edges.filter (fun e => decide (e.1 = u))).map Prod.snd

/-- `G.in_degree()` for one node. -/
def inDegree (g : Graph) (v : String) : Nat := (predecessors g v).length

/-- `graph.nodes[k]['status']`: `none` models the `KeyError` raised when the
node is absent or carries no `status` attribute. -/
def getStatus (g : Graph) (k : String) : Option String :=
  match g.nodes.find? (fun p => decide (p.1 = k)) with
  | none => none
  | some p => p.2

/-! ### createDependencyOutput / checkDependenciesResolved (lines 11-26) -/

/-- The loop body of `createDependencyOutput` (lines 17-21): append a
separator once `data` is longer than `"["`, then the colour code chosen by
`statusIsDone`, the dependency key and `Style.RESET_ALL`.  `none` models the
`KeyError` on a missing status. -/
def cdoLoop (g : Graph) : List Char → List String → Option (List Char)
  | data, [] => some data
  | data, dep :: rest =>
    match getStatus g dep with
    | none => none
    | some st =>
      cdoLoop g
        ((if data.length > 1 then data ++ (", ").data else data) ++
          (if statusIsDone st then foreGREEN else foreRED) ++ dep.data ++ styleRESET)
        rest

/-- `createDependencyOutput(graph, listOfDependencies)` (lines 11-23). -/
def createDependencyOutput (g : Graph) (deps : List String) : Option (List Char) :=
  if deps.length = 0 then some ("[]").data
  else (cdoLoop g ['['] deps).map (fun data => data ++ [']'])

/-- Python `str.find(sub)` starting the scan at index `i`: the first index at
which `sub` is a prefix of the remaining string, `-1` when there is none. -/
def pyFind (sub : List Char) : List Char → Nat → Int
  | [], i => if sub.isPrefixOf [] then (i : Int) else -1
  | s@(_ :: t), i => if sub.isPrefixOf s then (i : Int) else pyFind sub t (i + 1)

/-- `checkDependenciesResolved(strDependencies)` (lines 25-26):
`strDependencies.find(Fore.RED) == -1`. -/
def checkDependenciesResolved (s : List Char) : Bool :=
  pyFind foreRED s 0 == -1

/-! ### networkx.topological_generations / topological_sort -/

/-- The two failure modes of `topological_generations`, plus the fuel marker of
this embedding (proved unreachable from the entry point). -/
inductive KahnError where
  | unfeasible
  | runtimeErr
  | outOfFuel
deriving DecidableEq

/-- The message of the exception each failure mode raises in networkx. -/
def kahnErrorMessage : KahnError → String
  | .unfeasible => "Graph contains a cycle or graph changed during iteration"
  | .runtimeErr => "Graph changed during iteration"
  | .outOfFuel => ""

/-- `indegree_map[child] -= 1; if indegree_map[child] == 0: ... del` on the
association list: `none` models the `KeyError` when `child` is absent; the
Bool reports whether the entry reached zero and was removed. -/
def decrementChild : List (String × Nat) → String → Option (List (String × Nat) × Bool)
  | [], _ => none
  | (k, n) :: rest, child =>
    if k = child then
      if n - 1 = 0 then some (rest, true)
      else some ((k, n - 1) :: rest, false)
    else (decrementChild rest child).map (fun p => ((k, n) :: p.1, p.2))

/-- The `for child in G.neighbors(node)` loop: decrement each child, moving
entries that reach zero onto the accumulating next generation. -/
def processChildren :
    List (String × Nat) → List String → List String → Option (List (String × Nat) × List String)
  | counts, zeroAcc, [] => some (counts, zeroAcc)
  | counts, zeroAcc, child :: rest =>
    match decrementChild counts child with
    | none => none
    | some (counts', isZero) =>
      processChildren counts' (if isZero then zeroAcc ++ [child] else zeroAcc) rest

/-- The `for node in this_generation` loop of `topological_generations`. -/
def processGen (g : Graph) :
    List (String × Nat) → List String → List String → Option (List (String × Nat) × List String)
  | counts, zeroAcc, [] => some (counts, zeroAcc)
  | counts, zeroAcc, node :: rest =>
    match processChildren counts zeroAcc (successors g node) with
    | none => none
    | some (counts', zeroAcc') => processGen g counts' zeroAcc' rest

/-- The `while zero_indegree` loop of `topological_generations`, with explicit
fuel.  On an empty frontier the loop ends; a non-empty `indegree_map` then
raises `NetworkXUnfeasible`. -/
def kahnLoopF (g : Graph) :
    Nat → List (String × Nat) → List String → Except KahnError (List (List String))
  | 0, _, _ => .error .outOfFuel
  | _ + 1, counts, [] => if counts.isEmpty then .ok [] else .error .unfeasible
  | fuel + 1, counts, node :: rest =>
    match processGen g counts [] (node :: rest) with
    | none => .error .runtimeErr
    | some (counts', next) =>
      (kahnLoopF g fuel counts' next).map (fun gens => (node :: rest) :: gens)

/-- `indegree_map = {v: d for v, d in G.in_degree() if d > 0}`. -/
def initialCounts (g : Graph) : List (String × Nat) :=
  (nodeKeys g).filterMap (fun v => if 0 < inDegree g v then some (v, inDegree g v) else none)

/-- `zero_indegree = [v for v, d in G.in_degree() if d == 0]`. -/
def initialZero (g : Graph) : List String :=
  (nodeKeys g).filter (fun v => decide (inDegree g v = 0))

/-- `nx.topological_generations(G)`, fully consumed. -/
def topological_generations (g : Graph) : Except KahnError (List (List String)) :=
  kahnLoopF g ((initialCounts g).length + (initialZero g).length + 1)
    (initialCounts g) (initialZero g)

/-- epicPlanner.py line 59: `sorted_issues = list(nx.topological_sort(graph))`;
`topological_sort` yields each generation in turn. -/
def sorted_issues (g : Graph) : Except KahnError (List String) :=
  (topological_generations g).map (fun gens => gens.flatten)

/-! ### The round partition (epicPlanner.py lines 65-74) -/

/-- Lines 67-74: walk the topological order; a ticket joins the current round
when the round is empty or all its direct predecessors already sit in a closed
round, and otherwise closes the round and opens a new one. -/
def roundsLoop (g : Graph) : List (List String) → List String → List String → List (List String)
  | rs, current, [] => if current.isEmpty then rs else rs ++ [current]
  | rs, current, k :: rest =>
    if current.isEmpty ||
        (predecessors g k).all (fun dep => rs.any (fun r => decide (dep ∈ r))) then
      roundsLoop g rs (current ++ [k]) rest
    else
      roundsLoop g (rs ++ [current]) [k] rest

/-- The value of the `rounds` variable after lines 65-74 (or the exception the
topological sort raised on line 59, in which case no rounds are produced). -/
def rounds (g : Graph) : Except KahnError (List (List String)) :=
  (sorted_issues g).map (fun sorted => roundsLoop g [] [] sorted)

/-! ### networkx.transitive_closure and the display data (lines 61-62, 81-94) -/

/-- One reachability expansion step: keep the set and add every target of an
edge whose source is already in the set, removing duplicates. -/
def reachStep (edges : List (String × String)) (s : List String) : List String :=
  (s ++ (edges.filter (fun e => decide (e.1 ∈ s))).map Prod.snd).dedup

/-- Iterated expansion. -/
def reachN (edges : List (String × String)) : Nat → List String → List String
  | 0, s => s
  | n + 1, s => reachN edges n (reachStep edges s)

/-- `nx.descendants(G, v)`: the nodes reachable from `v`, excluding `v`
itself.  Iterating the expansion `|nodes| + 1` times reaches the fixpoint. -/
def descendants (g : Graph) (v : String) : List String :=
  (reachN g.edges ((nodeKeys g).length + 1) [v]).filter (fun u => decide (u ≠ v))

/-- `transitive_graph.predecessors(v)` where
`transitive_graph = nx.transitive_closure(graph)` (line 62): the closure has an
edge `(u, v)` exactly when `v` is a descendant of `u`, and its in-edges of `v`
are created in node order. -/
def transitiveClosurePreds (g : Graph) (v : String) : List String :=
  (nodeKeys g).filter (fun u => decide (v ∈ descendants g u))

/-- Python string comparison `a <= b`: lexicographic on code points. -/
def strLe : List Char → List Char → Bool
  | [], _ => true
  | _ :: _, [] => false
  | x :: xs, y :: ys => if x < y then true else if y < x then false else strLe xs ys

/-- Insertion into a sorted list of strings. -/
def insertSorted (x : String) : List String → List String
  | [] => [x]
  | y :: ys => if strLe x.data y.data then x :: y :: ys else y :: insertSorted x ys

/-- Python `sorted` on a collection of strings. -/
def sortStrings (l : List String) : List String := l.foldr insertSorted []

/-- Line 84: `dependencies = sorted([dep for dep in graph.predecessors(...)])`. -/
def dependenciesOf (g : Graph) (v : String) : List String :=
  sortStrings (predecessors g v)

/-- Line 85: `"" if not args.transitive else
sorted(set(transitive_graph.predecessors(v)) - set(dependencies))` (the empty
string and the empty list both have length 0, which is all line 90 looks at). -/
def transitive_dependencies (transitive : Bool) (g : Graph) (v : String) : List String :=
  if transitive then
    sortStrings (((transitiveClosurePreds g v).filter
      (fun u => decide (u ∉ predecessors g v))).dedup)
  else []

/-- The data of the report loop (lines 81-94) that depends on the graph: the
round partition together with, per printed ticket, its sorted direct
dependencies and its transitive-only dependencies (empty when `--transitive`
is off). -/
def plannerReport (transitive : Bool) (g : Graph) :
    Except KahnError (List (List String) × List (String × List String × List String)) :=
  (rounds g).map (fun R =>
    (R, R.flatten.map (fun k =>
      (k, dependenciesOf g k, transitive_dependencies transitive g k))))

/-! ### Spec-side notions -/

/-- The edge relation of the dependency graph: `u` blocks `v`. -/
def EdgeRel (g : Graph) (u v : String) : Prop := (u, v) ∈ g.edges

/-- The graph is acyclic: no node lies on a nonempty directed cycle. -/
def Acyclic (g : Graph) : Prop := ∀ v, ¬ Relation.TransGen (EdgeRel g) v v

/-- Well-formedness maintained by `networkx.DiGraph`: node keys and edges are
duplicate free and every edge endpoint is a node. -/
def WF (g : Graph) : Prop :=
  (nodeKeys g).Nodup ∧ g.edges.Nodup ∧ ∀ e ∈ g.edges, e.1 ∈ nodeKeys g ∧ e.2 ∈ nodeKeys g

instance (g : Graph) : Decidable (WF g) :=
  decidable_of_iff ((nodeKeys g).Nodup ∧ g.edges.Nodup ∧
    ∀ e ∈ g.edges, e.1 ∈ nodeKeys g ∧ e.2 ∈ nodeKeys g) Iff.rfl

/-- A ranking that increases along every edge bounds reachability. -/
theorem rank_lt_of_transGen (g : Graph) (f : String → Nat)
    (h : ∀ e ∈ g.edges, f e.1 < f e.2) {u v : String}
    (ht : Relation.TransGen (EdgeRel g) u v) : f u < f v := by
  induction ht with
  | single h1 => exact h _ h1
  | tail _ h2 ih => exact ih.trans (h _ h2)

/-- A ranking that increases along every edge certifies acyclicity. -/
theorem acyclic_of_rank (g : Graph) (f : String → Nat)
    (h : ∀ e ∈ g.edges, f e.1 < f e.2) : Acyclic g :=
  fun v hv => lt_irrefl (f v) (rank_lt_of_transGen g f h hv)

/-! ### C7: graph construction never creates a self-loop -/

theorem edges_ensureNode (g : Graph) (k : String) : (ensureNode g k).edges = g.edges := by
  unfold ensureNode; split <;> rfl

theorem edges_addNode (g : Graph) (k s : String) : (addNode g k s).edges = g.edges := by
  unfold addNode; split <;> rfl

theorem mem_edges_addEdge {g : Graph} {u v : String} {e : String × String}
    (he : e ∈ (addEdge g u v).edges) : e ∈ g.edges ∨ e = (u, v) := by
  simp only [addEdge] at he
  split at he
  · rw [edges_ensureNode, edges_ensureNode] at he
    exact Or.inl he
  · simp only [edges_ensureNode, List.mem_append, List.mem_singleton] at he
    exact he

theorem addIssueLinks_noLoop (k : String) :
    ∀ (links : List IssueLink) (g : Graph), (∀ e ∈ g.edges, e.1 ≠ e.2) →
      ∀ e ∈ (addIssueLinks g k links).edges, e.1 ≠ e.2 := by
  intro links
  induction links with
  | nil => intro g hg; exact hg
  | cons l ls ih =>
    intro g hg
    have hrw : addIssueLinks g k (l :: ls) = addIssueLinks
        (if pyLower l.typeName = "blocks" then
          match l.outwardIssue with
          | some k' => if k' ≠ k then addEdge g k k' else g
          | none => g
        else g) k ls := rfl
    rw [hrw]
    apply ih
    by_cases hb : pyLower l.typeName = "blocks"
    · rw [if_pos hb]
      cases ho : l.outwardIssue with
      | none => exact hg
      | some k' =>
        show ∀ e ∈ (if k' ≠ k then addEdge g k k' else g).edges, e.1 ≠ e.2
        by_cases hk : k' ≠ k
        · rw [if_pos hk]
          intro e he
          rcases mem_edges_addEdge he with h1 | h1
          · exact hg e h1
          · subst h1; exact Ne.symm hk
        · rw [if_neg hk]; exact hg
    · rw [if_neg hb]; exact hg

/-- C7: graph construction never creates a self-loop: no edge of
`buildGraph issues` goes from a node to itself. -/
theorem claimC7 (issues : List Issue) : ∀ e ∈ (buildGraph issues).edges, e.1 ≠ e.2 := by
  suffices h : ∀ (l : List Issue) (g : Graph), (∀ e ∈ g.edges, e.1 ≠ e.2) →
      ∀ e ∈ (l.foldl (fun g issue =>
        addIssueLinks (addNode g issue.key issue.status) issue.key issue.issuelinks) g).edges,
      e.1 ≠ e.2 by
    exact h issues ⟨[], []⟩ (by simp)
  intro l
  induction l with
  | nil => intro g hg; exact hg
  | cons i is ih =>
    intro g hg
    simp only [List.foldl_cons]
    refine ih _ (addIssueLinks_noLoop i.key i.issuelinks _ ?_)
    intro e he
    rw [edges_addNode] at he
    exact hg e he

theorem claimC7_witness :
    ("A", "B") ∈ (buildGraph [⟨"A", "Open", [⟨"Blocks", some "B"⟩]⟩]).edges ∧
      (("A", "B") : String × String).1 ≠ (("A", "B") : String × String).2 :=
  ⟨by decide, claimC7 [⟨"A", "Open", [⟨"Blocks", some "B"⟩]⟩] ("A", "B") (by decide)⟩

/-! ### C5: determinism -/

/-- C5: the scheduler is deterministic: the round partition (and the whole
report) is a pure function of the graph, so two invocations on the identical
graph are identical. -/
theorem claimC5 : ∀ (t : Bool) (g : Graph),
    rounds g = rounds g ∧ plannerReport t g = plannerReport t g :=
  fun _ _ => ⟨rfl, rfl⟩

/-! ### C6: the transitive flag never affects the round partition -/

/-- C6: the round component of the report does not depend on the
`--transitive` flag; the transitive-closure data feeds only the per-ticket
display fields. -/
theorem claimC6 : ∀ (t₁ t₂ : Bool) (g : Graph),
    (plannerReport t₁ g).map Prod.fst = (plannerReport t₂ g).map Prod.fst := by
  intro t₁ t₂ g
  unfold plannerReport
  cases rounds g <;> rfl

/-! ### C10: checkDependenciesResolved ∘ createDependencyOutput -/

/-- `Fore.GREEN` after the escape character. -/
def greenTail : List Char := ['[', '3', '2', 'm']

/-- `Fore.RED` after the escape character. -/
def redTail : List Char := ['[', '3', '1', 'm']

/-- `Style.RESET_ALL` after the escape character. -/
def resetTail : List Char := ['[', '0', 'm']

/-- Every occurrence of the escape character in `s` starts a complete GREEN or
RESET code. -/
def EscOk (s : List Char) : Prop :=
  ∀ u v, s = u ++ ESC :: v → greenTail <+: v ∨ resetTail <+: v

theorem escOk_of_not_mem {s : List Char} (h : ESC ∉ s) : EscOk s := by
  intro u v huv
  exact absurd (huv ▸ (by simp : ESC ∈ u ++ ESC :: v)) h

theorem isInfix_append_left {l a : List Char} (h : l <:+: a) (b : List Char) :
    l <:+: a ++ b :=
  h.trans ⟨[], b, by simp⟩

theorem EscOk.append {a b : List Char} (ha : EscOk a) (hb : EscOk b) : EscOk (a ++ b) := by
  intro u v huv
  rcases List.append_eq_append_iff.mp huv with ⟨a', _, ha2⟩ | ⟨c', hc1, hc2⟩
  · exact hb a' v ha2
  · cases c' with
    | nil =>
      simp only [List.nil_append] at hc2
      exact hb [] v (by simpa using hc2.symm)
    | cons x c'' =>
      have hc2' : ESC :: v = x :: (c'' ++ b) := by simpa using hc2
      injection hc2' with hx hv
      have hmem : a = u ++ ESC :: c'' := by rw [hc1, ← hx]
      rcases ha u c'' hmem with h | h
      · exact Or.inl (by rw [hv]; exact h.trans (List.prefix_append c'' b))
      · exact Or.inr (by rw [hv]; exact h.trans (List.prefix_append c'' b))

theorem escOk_cons_esc {t : List Char} (hne : ESC ∉ t)
    (hpre : greenTail <+: t ∨ resetTail <+: t) : EscOk (ESC :: t) := by
  intro u v huv
  cases u with
  | nil =>
    simp only [List.nil_append] at huv
    injection huv with _ ht
    exact ht ▸ hpre
  | cons x u' =>
    have huv' : ESC :: t = x :: (u' ++ ESC :: v) := by simpa using huv
    injection huv' with hx ht
    exact absurd (ht ▸ (by simp : ESC ∈ u' ++ ESC :: v)) hne

theorem escOk_foreGREEN : EscOk foreGREEN :=
  escOk_cons_esc (by decide) (Or.inl (List.prefix_refl greenTail))

theorem escOk_styleRESET : EscOk styleRESET :=
  escOk_cons_esc (by decide) (Or.inr (List.prefix_refl resetTail))

theorem not_red_of_escOk {s : List Char} (h : EscOk s) : ¬ foreRED <:+: s := by
  rintro ⟨u, t, hut⟩
  have hs : s = u ++ ESC :: (redTail ++ t) := by
    rw [← hut, List.append_assoc]; rfl
  rcases h u (redTail ++ t) hs with ⟨w, hw⟩ | ⟨w, hw⟩
  · injection hw with _ hw
    injection hw with _ hw
    injection hw with hbad _
    exact absurd hbad (by decide)
  · injection hw with _ hw
    injection hw with hbad _
    exact absurd hbad (by decide)

theorem pyFind_eq_neg_one_iff (sub : List Char) :
    ∀ (s : List Char) (i : Nat), pyFind sub s i = -1 ↔ ¬ sub <:+: s := by
  intro s
  induction s with
  | nil =>
    intro i
    unfold pyFind
    constructor
    · intro h hin
      have hsub : sub = [] := List.eq_nil_of_infix_nil hin
      rw [hsub] at h
      simp at h
    · intro hn
      have hsub : sub ≠ [] := fun hh => hn (hh ▸ List.nil_infix)
      rw [if_neg (by simpa using fun hh => hsub (List.prefix_nil.mp hh))]
  | cons c t ih =>
    intro i
    unfold pyFind
    by_cases hp : sub <+: c :: t
    · rw [if_pos (by simpa using hp)]
      constructor
      · intro h
        exact absurd h (by omega)
      · intro hn; exact absurd hp.isInfix hn
    · rw [if_neg (by simpa using hp)]
      rw [ih (i + 1)]
      constructor
      · intro hn hin
        rcases List.infix_cons_iff.mp hin with h | h
        · exact hp h
        · exact hn h
      · intro hn h
        exact hn (List.infix_cons_iff.mpr (Or.inr h))

theorem checkDependenciesResolved_iff (s : List Char) :
    checkDependenciesResolved s = true ↔ ¬ foreRED <:+: s := by
  unfold checkDependenciesResolved
  rw [beq_iff_eq]
  exact pyFind_eq_neg_one_iff foreRED s 0

theorem cdoLoop_some (g : Graph) :
    ∀ (deps : List String) (data : List Char), (∀ d ∈ deps, (getStatus g d).isSome) →
      ∃ out, cdoLoop g data deps = some out := by
  intro deps
  induction deps with
  | nil => intro data _; exact ⟨data, rfl⟩
  | cons d rest ih =>
    intro data hsome
    obtain ⟨st, hst⟩ := Option.isSome_iff_exists.mp (hsome d (by simp))
    have hrest : ∀ d' ∈ rest, (getStatus g d').isSome := fun d' hd' => hsome d' (by simp [hd'])
    obtain ⟨out, hout⟩ := ih _ hrest
    exact ⟨out, by rw [cdoLoop, hst]; exact hout⟩

theorem cdoLoop_escOk (g : Graph) :
    ∀ (deps : List String) (data : List Char),
      (∀ d ∈ deps, ESC ∉ d.data) →
      (∀ d ∈ deps, ∀ st, getStatus g d = some st → statusIsDone st = true) →
      EscOk data →
      ∀ out, cdoLoop g data deps = some out → EscOk out := by
  intro deps
  induction deps with
  | nil =>
    intro data _ _ hdata out hout
    rw [cdoLoop] at hout
    cases hout; exact hdata
  | cons d rest ih =>
    intro data hesc hdone hdata out hout
    rw [cdoLoop] at hout
    cases hst : getStatus g d with
    | none => rw [hst] at hout; cases hout
    | some st =>
      rw [hst] at hout
      dsimp only at hout
      have hgreen : statusIsDone st = true := hdone d (by simp) st hst
      rw [if_pos hgreen] at hout
      refine ih _ (fun d' hd' => hesc d' (by simp [hd']))
        (fun d' hd' => hdone d' (by simp [hd'])) ?_ out hout
      have hbase : EscOk (if data.length > 1 then data ++ (", ").data else data) := by
        split
        · exact hdata.append (escOk_of_not_mem (by decide))
        · exact hdata
      exact ((hbase.append escOk_foreGREEN).append
        (escOk_of_not_mem (hesc d (by simp)))).append escOk_styleRESET

theorem cdoLoop_red (g : Graph) :
    ∀ (deps : List String) (data : List Char),
      (∀ d ∈ deps, (getStatus g d).isSome) →
      ((∃ d ∈ deps, ∃ st, getStatus g d = some st ∧ statusIsDone st = false) ∨
        foreRED <:+: data) →
      ∀ out, cdoLoop g data deps = some out → foreRED <:+: out := by
  intro deps
  induction deps with
  | nil =>
    intro data _ hred out hout
    rw [cdoLoop] at hout
    cases hout
    rcases hred with ⟨d, hd, _⟩ | h
    · exact absurd hd (by simp)
    · exact h
  | cons d rest ih =>
    intro data hsome hred out hout
    rw [cdoLoop] at hout
    obtain ⟨st, hst⟩ := Option.isSome_iff_exists.mp (hsome d (by simp))
    rw [hst] at hout
    dsimp only at hout
    have hrest : ∀ d' ∈ rest, (getStatus g d').isSome := fun d' hd' => hsome d' (by simp [hd'])
    have hdata_base : foreRED <:+: data →
        foreRED <:+: (if data.length > 1 then data ++ (", ").data else data) := by
      intro h
      split
      · exact isInfix_append_left h (", ").data
      · exact h
    rcases hred with ⟨d', hd', st', hst', hbad⟩ | h
    · rcases List.mem_cons.mp hd' with rfl | hmem
      · have hstst : st = st' := by rw [hst] at hst'; injection hst'
        rw [← hstst] at hbad
        have hcond : ¬ (statusIsDone st = true) := by simp [hbad]
        rw [if_neg hcond] at hout
        refine ih _ hrest (Or.inr ?_) out hout
        exact ⟨(if data.length > 1 then data ++ (", ").data else data),
          d'.data ++ styleRESET, by simp⟩
      · exact ih _ hrest (Or.inl ⟨d', hmem, st', hst', hbad⟩) out hout
    · have hb : foreRED <:+: ((if data.length > 1 then data ++ (", ").data else data) ++
          (if statusIsDone st then foreGREEN else foreRED)) ++ d.data ++ styleRESET :=
        isInfix_append_left (isInfix_append_left
          (isInfix_append_left (hdata_base h) _) d.data) styleRESET
      exact ih _ hrest (Or.inr hb) out hout

/-- C10: for dependency keys carrying a status and containing no escape
character, `checkDependenciesResolved` on `createDependencyOutput`'s result is
true exactly when every dependency's status satisfies `statusIsDone` (in
particular it is true for an empty dependency list). -/
theorem claimC10 (g : Graph) (deps : List String)
    (hst : ∀ d ∈ deps, (getStatus g d).isSome)
    (hesc : ∀ d ∈ deps, ESC ∉ d.data) :
    ∃ out, createDependencyOutput g deps = some out ∧
      (checkDependenciesResolved out = true ↔
        ∀ d ∈ deps, ∀ st, getStatus g d = some st → statusIsDone st = true) := by
  unfold createDependencyOutput
  by_cases hnil : deps.length = 0
  · rw [if_pos hnil]
    refine ⟨("[]").data, rfl, ?_⟩
    have hdeps : deps = [] := List.length_eq_zero.mp hnil
    subst hdeps
    constructor
    · intro _ d hd
      exact absurd hd (by simp)
    · intro _
      decide
  · rw [if_neg hnil]
    obtain ⟨out0, hout0⟩ := cdoLoop_some g deps ['['] hst
    refine ⟨out0 ++ [']'], by rw [hout0]; rfl, ?_⟩
    rw [checkDependenciesResolved_iff]
    by_cases hall : ∀ d ∈ deps, ∀ st, getStatus g d = some st → statusIsDone st = true
    · have hok : EscOk (out0 ++ [']']) :=
        (cdoLoop_escOk g deps ['['] hesc hall (escOk_of_not_mem (by decide)) out0
          hout0).append (escOk_of_not_mem (by decide))
      exact ⟨fun _ => hall, fun _ => not_red_of_escOk hok⟩
    · push_neg at hall
      obtain ⟨d, hd, st, hgd, hbad⟩ := hall
      have hfalse : statusIsDone st = false := by
        cases hcase : statusIsDone st with
        | false => rfl
        | true => exact absurd hcase hbad
      have hred : foreRED <:+: out0 :=
        cdoLoop_red g deps ['['] hst (Or.inl ⟨d, hd, st, hgd, hfalse⟩) out0 hout0
      have hred' : foreRED <:+: out0 ++ [']'] := isInfix_append_left hred [']']
      constructor
      · intro hchk; exact absurd hred' hchk
      · intro hforall; exact absurd (hforall d hd st hgd) hbad

theorem claimC10_witness :
    ∃ out, createDependencyOutput (⟨[("X", some ("Done"))], []⟩ : Graph) ["X"] = some out ∧
      checkDependenciesResolved out = true := by
  obtain ⟨out, h1, h2⟩ :=
    claimC10 (⟨[("X", some ("Done"))], []⟩ : Graph) ["X"] (by decide) (by decide)
  refine ⟨out, h1, h2.mpr ?_⟩
  intro d hd st hst
  rw [List.mem_singleton] at hd
  subst hd
  have hG : getStatus (⟨[("X", some ("Done"))], []⟩ : Graph) ("X") = some ("Done") := by decide
  rw [hG] at hst
  injection hst with h
  rw [← h]
  decide

/-! ### Counting in-edges not yet relaxed -/

theorem mem_successors {g : Graph} {u v : String} :
    v ∈ successors g u ↔ (u, v) ∈ g.edges := by
  simp only [successors, List.mem_map, List.mem_filter, decide_eq_true_eq]
  constructor
  · rintro ⟨e, ⟨he, h1⟩, h2⟩
    have : e = (u, v) := Prod.ext h1 h2
    exact this ▸ he
  · intro h
    exact ⟨(u, v), ⟨h, rfl⟩, rfl⟩

theorem mem_predecessors {g : Graph} {u v : String} :
    u ∈ predecessors g v ↔ (u, v) ∈ g.edges := by
  simp only [predecessors, List.mem_map, List.mem_filter, decide_eq_true_eq]
  constructor
  · rintro ⟨e, ⟨he, h2⟩, h1⟩
    have : e = (u, v) := Prod.ext h1 h2
    exact this ▸ he
  · intro h
    exact ⟨(u, v), ⟨h, rfl⟩, rfl⟩

theorem successors_nodup {g : Graph} (h : g.edges.Nodup) (u : String) :
    (successors g u).Nodup := by
  refine ((h.sublist (List.filter_sublist g.edges)).map_on ?_)
  intro x hx y hy hxy
  have hx1 : x.1 = u := by simpa using (List.mem_filter.mp hx).2
  have hy1 : y.1 = u := by simpa using (List.mem_filter.mp hy).2
  exact Prod.ext (hx1.trans hy1.symm) hxy

theorem predecessors_nodup {g : Graph} (h : g.edges.Nodup) (v : String) :
    (predecessors g v).Nodup := by
  refine ((h.sublist (List.filter_sublist g.edges)).map_on ?_)
  intro x hx y hy hxy
  have hx1 : x.2 = v := by simpa using (List.mem_filter.mp hx).2
  have hy1 : y.2 = v := by simpa using (List.mem_filter.mp hy).2
  exact Prod.ext hxy (hx1.trans hy1.symm)

/-- The number of in-edges of `v` whose source has not yet been processed
(the value `indegree_map` holds for `v` once every node of `D` has had its
out-edges relaxed). -/
def pendingIn (g : Graph) (D : List String) (v : String) : Nat :=
  (predecessors g v).countP (fun u => decide (u ∉ D))

theorem pendingIn_nil (g : Graph) (v : String) : pendingIn g [] v = inDegree g v := by
  unfold pendingIn inDegree
  rw [show (predecessors g v).length = (predecessors g v).countP (fun _ => true) by
    simp [List.countP_eq_length_filter]]
  exact List.countP_congr (by simp)

theorem pendingIn_pos {g : Graph} {D : List String} {v : String} :
    0 < pendingIn g D v ↔ ∃ u, (u, v) ∈ g.edges ∧ u ∉ D := by
  unfold pendingIn
  rw [List.countP_pos_iff]
  constructor
  · rintro ⟨u, hu, hd⟩
    exact ⟨u, mem_predecessors.mp hu, by simpa using hd⟩
  · rintro ⟨u, hu, hd⟩
    exact ⟨u, mem_predecessors.mpr hu, by simpa using hd⟩

theorem pendingIn_zero {g : Graph} {D : List String} {v : String} :
    pendingIn g D v = 0 ↔ ∀ u, (u, v) ∈ g.edges → u ∈ D := by
  unfold pendingIn
  rw [List.countP_eq_zero]
  constructor
  · intro h u hu
    have := h u (mem_predecessors.mpr hu)
    simpa using this
  · intro h u hu
    simpa using h u (mem_predecessors.mp hu)

theorem pendingIn_congr {g : Graph} {D₁ D₂ : List String} (v : String)
    (h : ∀ x, x ∈ D₁ ↔ x ∈ D₂) : pendingIn g D₁ v = pendingIn g D₂ v := by
  unfold pendingIn
  refine List.countP_congr ?_
  intro x _
  simp [h x]

theorem countP_and_ne {u : String} {P : String → Bool} :
    ∀ {l : List String}, l.Nodup →
      l.countP (fun x => P x && decide (x ≠ u)) =
        l.countP P - (if u ∈ l ∧ P u = true then 1 else 0) := by
  intro l
  induction l with
  | nil => intro _; simp
  | cons a t ih =>
    intro hnd
    have hndt : t.Nodup := hnd.of_cons
    rw [List.countP_cons, List.countP_cons, ih hndt]
    by_cases hau : a = u
    · subst hau
      have hat : a ∉ t := (List.nodup_cons.mp hnd).1
      have h1 : (if a ∈ t ∧ P a = true then 1 else 0) = 0 := by
        rw [if_neg]; rintro ⟨h, _⟩; exact hat h
      rw [h1]
      have h3 : (a ∈ a :: t ∧ P a = true) ↔ (P a = true) := by simp
      rw [if_congr h3 rfl rfl]
      have h2 : (decide (a ≠ a)) = false := by simp
      rw [h2]
      cases hP : P a <;> simp
    · have hmem : (u ∈ a :: t ∧ P u = true) ↔ (u ∈ t ∧ P u = true) := by
        constructor
        · rintro ⟨hm, hP⟩
          rcases List.mem_cons.mp hm with h | h
          · exact absurd h.symm hau
          · exact ⟨h, hP⟩
        · rintro ⟨hm, hP⟩; exact ⟨List.mem_cons.mpr (Or.inr hm), hP⟩
      rw [if_congr hmem rfl rfl]
      have hane : decide (a ≠ u) = true := by simpa using hau
      rw [hane]
      by_cases hC : u ∈ t ∧ P u = true
      · rw [if_pos hC]
        have h1 : 1 ≤ t.countP P := List.countP_pos_iff.mpr ⟨u, hC.1, hC.2⟩
        cases hP : P a <;> simp <;> omega
      · rw [if_neg hC]
        cases hP : P a <;> simp

theorem pendingIn_append_single {g : Graph} {D : List String} {u : String}
    (hwfe : g.edges.Nodup) (hu : u ∉ D) (v : String) :
    pendingIn g (D ++ [u]) v =
      pendingIn g D v - (if v ∈ successors g u then 1 else 0) := by
  unfold pendingIn
  have hcongr : (predecessors g v).countP (fun x => decide (x ∉ D ++ [u])) =
      (predecessors g v).countP (fun x => decide (x ∉ D) && decide (x ≠ u)) := by
    refine List.countP_congr ?_
    intro x _
    constructor
    · intro h
      simp only [decide_eq_true_eq] at h
      simp only [Bool.and_eq_true, decide_eq_true_eq]
      constructor
      · intro hd; exact h (by simp [hd])
      · intro he; exact h (by simp [he])
    · intro h
      simp only [Bool.and_eq_true, decide_eq_true_eq] at h
      simp only [decide_eq_true_eq, List.mem_append]
      rintro (hd | hd)
      · exact h.1 hd
      · exact h.2 (by simpa using hd)
  rw [hcongr, countP_and_ne (predecessors_nodup hwfe v)]
  congr 1
  by_cases hm : v ∈ successors g u
  · rw [if_pos hm, if_pos ⟨mem_predecessors.mpr (mem_successors.mp hm), by simpa using hu⟩]
  · rw [if_neg hm, if_neg ?_]
    rintro ⟨hmem, _⟩
    exact hm (mem_successors.mpr (mem_predecessors.mp hmem))

/-! ### decrementChild characterization -/

theorem decrementChild_none_iff {counts : List (String × Nat)} {child : String} :
    decrementChild counts child = none ↔ child ∉ counts.map Prod.fst := by
  induction counts with
  | nil => simp [decrementChild]
  | cons p rest ih =>
    obtain ⟨k, n⟩ := p
    rw [decrementChild]
    by_cases hk : k = child
    · subst hk
      rw [if_pos rfl]
      split <;> simp
    · rw [if_neg hk]
      constructor
      · intro h
        have hrest : decrementChild rest child = none := by
          cases hd : decrementChild rest child with
          | none => rfl
          | some q => rw [hd] at h; simp at h
        simp only [List.map_cons, List.mem_cons]
        rintro (h1 | h1)
        · exact hk h1.symm
        · exact (ih.mp hrest) h1
      · intro h
        have : child ∉ rest.map Prod.fst := fun hm => h (by simp [hm])
        rw [ih.mpr this]
        rfl

/-- Structural characterization: `decrementChild` rewrites the first entry
with the key, removing it when its count reaches zero. -/
theorem decrementChild_eq {child : String} :
    ∀ {counts counts' : List (String × Nat)} {z : Bool},
      decrementChild counts child = some (counts', z) →
      ∃ pre n post, counts = pre ++ (child, n) :: post ∧ child ∉ pre.map Prod.fst ∧
        (if n - 1 = 0 then counts' = pre ++ post ∧ z = true
         else counts' = pre ++ (child, n - 1) :: post ∧ z = false) := by
  intro counts
  induction counts with
  | nil => intro counts' z h; simp [decrementChild] at h
  | cons p rest ih =>
    intro counts' z h
    obtain ⟨k, n⟩ := p
    rw [decrementChild] at h
    by_cases hk : k = child
    · subst hk
      rw [if_pos rfl] at h
      refine ⟨[], n, rest, by simp, by simp, ?_⟩
      by_cases hz : n - 1 = 0
      · rw [if_pos hz] at h ⊢
        injection h with h1
        injection h1 with h1 h2
        exact ⟨by simp [← h1], h2.symm⟩
      · rw [if_neg hz] at h ⊢
        injection h with h1
        injection h1 with h1 h2
        exact ⟨by simp [← h1], h2.symm⟩
    · rw [if_neg hk] at h
      cases hd : decrementChild rest child with
      | none => rw [hd] at h; simp at h
      | some q =>
        rw [hd] at h
        obtain ⟨rest', z'⟩ := q
        simp only [Option.map_some'] at h
        injection h with h1
        injection h1 with h1 h2
        obtain ⟨pre, m, post, hq1, hq2, hq3⟩ := ih hd
        refine ⟨(k, n) :: pre, m, post, by simp [hq1], ?_, ?_⟩
        · simp only [List.map_cons, List.mem_cons]
          rintro (hc | hc)
          · exact hk hc.symm
          · exact hq2 hc
        · subst h2
          split at hq3 <;> rename_i hm1

          · rw [if_pos hm1]
            exact ⟨by rw [← h1, hq3.1]; rfl, hq3.2⟩
          · rw [if_neg hm1]
            exact ⟨by rw [← h1, hq3.1]; rfl, hq3.2⟩

/-! ### processChildren characterization -/

theorem processChildren_spec (g : Graph) (u : String) (D : List String)
    (hwfe : g.edges.Nodup) (hwft : ∀ e ∈ g.edges, e.2 ∈ nodeKeys g) (hu : u ∉ D) :
    ∀ (todo c1 : List String) (counts : List (String × Nat)) (zeroAcc : List String),
      successors g u = c1 ++ todo →
      (counts.map Prod.fst).Nodup →
      (∀ p ∈ counts, p.2 = pendingIn g D p.1 - (if p.1 ∈ c1 then 1 else 0) ∧ 0 < p.2) →
      (∀ v, v ∈ counts.map Prod.fst ↔
        v ∈ nodeKeys g ∧ 0 < pendingIn g D v - (if v ∈ c1 then 1 else 0)) →
      zeroAcc.Nodup →
      (∀ v ∈ zeroAcc, v ∉ counts.map Prod.fst) →
      ∃ counts' zeroAcc',
        processChildren counts zeroAcc todo = some (counts', zeroAcc') ∧
        (counts'.map Prod.fst).Nodup ∧
        (∀ p ∈ counts', p.2 = pendingIn g D p.1 -
          (if p.1 ∈ c1 ++ todo then 1 else 0) ∧ 0 < p.2) ∧
        (∀ v, v ∈ counts'.map Prod.fst ↔
          v ∈ nodeKeys g ∧ 0 < pendingIn g D v - (if v ∈ c1 ++ todo then 1 else 0)) ∧
        zeroAcc'.Nodup ∧
        (∀ v ∈ zeroAcc', v ∉ counts'.map Prod.fst) ∧
        (∀ v ∈ zeroAcc', v ∈ zeroAcc ∨ (u, v) ∈ g.edges) ∧
        (∀ v, (v ∈ zeroAcc' ∨ v ∈ counts'.map Prod.fst) ↔
          (v ∈ zeroAcc ∨ v ∈ counts.map Prod.fst)) := by
  intro todo
  induction todo with
  | nil =>
    intro c1 counts zeroAcc hsucc hnd hvals hmem hzn hz2
    refine ⟨counts, zeroAcc, rfl, hnd, ?_, ?_, hzn, hz2, fun v hv => Or.inl hv, fun v => Iff.rfl⟩
    · simpa using hvals
    · simpa using hmem
  | cons c rest ih =>
    intro c1 counts zeroAcc hsucc hnd hvals hmem hzn hz2
    have hndsucc : (c1 ++ c :: rest).Nodup := hsucc ▸ successors_nodup hwfe u
    have hcc1 : c ∉ c1 := fun h =>
      (List.nodup_append.mp hndsucc).2.2 h (by simp)
    have hcedge : (u, c) ∈ g.edges := mem_successors.mp (by rw [hsucc]; simp)
    have hckeys : c ∈ nodeKeys g := hwft (u, c) hcedge
    have hpendc : 0 < pendingIn g D c := pendingIn_pos.mpr ⟨u, hcedge, hu⟩
    have hcmem : c ∈ counts.map Prod.fst := by
      refine (hmem c).mpr ⟨hckeys, ?_⟩
      rw [if_neg hcc1]
      simpa using hpendc
    obtain ⟨q, hdec⟩ : ∃ q, decrementChild counts c = some q := by
      cases hq : decrementChild counts c with
      | none => exact absurd hcmem (decrementChild_none_iff.mp hq)
      | some q => exact ⟨q, rfl⟩
    obtain ⟨counts₁, z⟩ := q
    obtain ⟨pre, n, post, hcounts, hcpre, hsplit⟩ := decrementChild_eq hdec
    have hcn : (c, n) ∈ counts := by rw [hcounts]; simp
    have hval_n := hvals (c, n) hcn
    have hn_eq : n = pendingIn g D c := by
      have h := hval_n.1
      rwa [if_neg hcc1, Nat.sub_zero] at h
    have hn_pos : 0 < n := hval_n.2
    have hkeys : counts.map Prod.fst = pre.map Prod.fst ++ c :: post.map Prod.fst := by
      rw [hcounts]; simp
    have hndk : (c :: (pre.map Prod.fst ++ post.map Prod.fst)).Nodup := by
      rw [hkeys] at hnd
      exact List.nodup_middle.mp hnd
    have hcnotin : c ∉ pre.map Prod.fst ++ post.map Prod.fst := (List.nodup_cons.mp hndk).1
    have hndpp : (pre.map Prod.fst ++ post.map Prod.fst).Nodup := (List.nodup_cons.mp hndk).2
    have hceq : (c1 ++ [c]) ++ rest = c1 ++ c :: rest := by simp
    have hsucc' : successors g u = (c1 ++ [c]) ++ rest := by rw [hceq]; exact hsucc
    have hifeq : ∀ v, v ≠ c →
        (if v ∈ c1 ++ [c] then 1 else 0) = (if v ∈ c1 then 1 else 0) := by
      intro v hvc
      by_cases hin : v ∈ c1
      · rw [if_pos (by simp [hin]), if_pos hin]
      · rw [if_neg (by simp [hin, hvc]), if_neg hin]
    have hkeymem : ∀ v, v ∈ counts.map Prod.fst ↔
        (v ∈ pre.map Prod.fst ++ post.map Prod.fst ∨ v = c) := by
      intro v
      rw [hkeys]
      simp only [List.mem_append, List.mem_cons]
      tauto
    have hentry : ∀ p : String × Nat, (p ∈ pre ∨ p ∈ post) → p ∈ counts ∧ p.1 ≠ c := by
      intro p hp
      have hpmem : p ∈ counts := by
        rw [hcounts]
        rcases hp with h | h
        · exact List.mem_append.mpr (Or.inl h)
        · exact List.mem_append.mpr (Or.inr (by simp [h]))
      refine ⟨hpmem, fun hpc => ?_⟩
      apply hcnotin
      rcases hp with h | h
      · exact List.mem_append.mpr (Or.inl (hpc ▸ List.mem_map.mpr ⟨p, h, rfl⟩))
      · exact List.mem_append.mpr (Or.inr (hpc ▸ List.mem_map.mpr ⟨p, h, rfl⟩))
    have hcza : c ∉ zeroAcc := fun h => hz2 c h hcmem
    by_cases hn1 : n - 1 = 0
    · -- the child's counter reached zero: it is removed and appended to the
      -- next generation
      rw [if_pos hn1] at hsplit
      obtain ⟨hc₁, hz⟩ := hsplit
      subst hz
      subst hc₁
      have hk1 : (pre ++ post).map Prod.fst = pre.map Prod.fst ++ post.map Prod.fst := by simp
      have hnd1 : ((pre ++ post).map Prod.fst).Nodup := by rw [hk1]; exact hndpp
      have hcnot1 : c ∉ (pre ++ post).map Prod.fst := by rw [hk1]; exact hcnotin
      have hvals1 : ∀ p ∈ pre ++ post,
          p.2 = pendingIn g D p.1 - (if p.1 ∈ c1 ++ [c] then 1 else 0) ∧ 0 < p.2 := by
        intro p hp
        obtain ⟨hpc, hpne⟩ := hentry p (List.mem_append.mp hp)
        obtain ⟨hv, hvp⟩ := hvals p hpc
        exact ⟨by rw [hifeq p.1 hpne]; exact hv, hvp⟩
      have hmem1 : ∀ v, v ∈ (pre ++ post).map Prod.fst ↔
          v ∈ nodeKeys g ∧ 0 < pendingIn g D v - (if v ∈ c1 ++ [c] then 1 else 0) := by
        intro v
        by_cases hvc : v = c
        · subst hvc
          constructor
          · intro h; exact absurd h hcnot1
          · rintro ⟨_, hpos⟩
            rw [if_pos (by simp)] at hpos
            rw [← hn_eq, hn1] at hpos
            exact absurd hpos (by simp)
        · rw [hifeq v hvc]
          constructor
          · intro h
            exact (hmem v).mp ((hkeymem v).mpr (Or.inl (by rwa [hk1] at h)))
          · intro h
            have hvk := (hkeymem v).mp ((hmem v).mpr h)
            rcases hvk with h1 | h1
            · rwa [hk1]
            · exact absurd h1 hvc
      have hzn1 : (zeroAcc ++ [c]).Nodup := by
        refine List.nodup_append.mpr ⟨hzn, by simp, ?_⟩
        intro a ha hb
        rw [List.mem_singleton] at hb
        exact hcza (hb ▸ ha)
      have hz21 : ∀ v ∈ zeroAcc ++ [c], v ∉ (pre ++ post).map Prod.fst := by
        intro v hv
        rcases List.mem_append.mp hv with h | h
        · intro hvm
          exact hz2 v h ((hkeymem v).mpr (Or.inl (by rwa [hk1] at hvm)))
        · rw [List.mem_singleton] at h
          exact h ▸ hcnot1
      obtain ⟨counts', zeroAcc', hrun, hnd', hvals', hmem', hzn', hz2', hz3', hcons'⟩ :=
        ih (c1 ++ [c]) (pre ++ post) (zeroAcc ++ [c]) hsucc' hnd1 hvals1 hmem1 hzn1 hz21
      refine ⟨counts', zeroAcc', ?_, hnd', ?_, ?_, hzn', hz2', ?_, ?_⟩
      · rw [processChildren, hdec]
        dsimp only
        rw [if_pos rfl]
        exact hrun
      · intro p hp
        have h := hvals' p hp
        rwa [hceq] at h
      · intro v
        have h := hmem' v
        rwa [hceq] at h
      · intro v hv
        rcases hz3' v hv with h | h
        · rcases List.mem_append.mp h with h1 | h1
          · exact Or.inl h1
          · rw [List.mem_singleton] at h1
            exact Or.inr (h1 ▸ hcedge)
        · exact Or.inr h
      · intro v
        rw [hcons' v]
        constructor
        · rintro (h | h)
          · rcases List.mem_append.mp h with h1 | h1
            · exact Or.inl h1
            · rw [List.mem_singleton] at h1
              exact Or.inr (h1 ▸ hcmem)
          · exact Or.inr ((hkeymem v).mpr (Or.inl (by rwa [hk1] at h)))
        · rintro (h | h)
          · exact Or.inl (List.mem_append.mpr (Or.inl h))
          · rcases (hkeymem v).mp h with h1 | h1
            · exact Or.inr (by rwa [hk1])
            · exact Or.inl (List.mem_append.mpr (Or.inr (by simp [h1])))
    · -- the child's counter stays positive: only its value changes
      rw [if_neg hn1] at hsplit
      obtain ⟨hc₁, hz⟩ := hsplit
      subst hz
      subst hc₁
      have hk1 : (pre ++ (c, n - 1) :: post).map Prod.fst = counts.map Prod.fst := by
        rw [hcounts]; simp
      have hnd1 : ((pre ++ (c, n - 1) :: post).map Prod.fst).Nodup := by
        rw [hk1]; exact hnd
      have hvals1 : ∀ p ∈ pre ++ (c, n - 1) :: post,
          p.2 = pendingIn g D p.1 - (if p.1 ∈ c1 ++ [c] then 1 else 0) ∧ 0 < p.2 := by
        intro p hp
        rcases List.mem_append.mp hp with h | h
        · obtain ⟨hpc, hpne⟩ := hentry p (Or.inl h)
          obtain ⟨hv, hvp⟩ := hvals p hpc
          exact ⟨by rw [hifeq p.1 hpne]; exact hv, hvp⟩
        · rcases List.mem_cons.mp h with h1 | h1
          · subst h1
            refine ⟨?_, Nat.pos_of_ne_zero hn1⟩
            rw [if_pos (by simp), ← hn_eq]
          · obtain ⟨hpc, hpne⟩ := hentry p (Or.inr h1)
            obtain ⟨hv, hvp⟩ := hvals p hpc
            exact ⟨by rw [hifeq p.1 hpne]; exact hv, hvp⟩
      have hmem1 : ∀ v, v ∈ (pre ++ (c, n - 1) :: post).map Prod.fst ↔
          v ∈ nodeKeys g ∧ 0 < pendingIn g D v - (if v ∈ c1 ++ [c] then 1 else 0) := by
        intro v
        rw [hk1]
        by_cases hvc : v = c
        · subst hvc
          constructor
          · intro _
            refine ⟨hckeys, ?_⟩
            rw [if_pos (by simp), ← hn_eq]
            exact Nat.pos_of_ne_zero hn1
          · intro _
            exact hcmem
        · rw [hifeq v hvc]
          exact hmem v
      have hz21 : ∀ v ∈ zeroAcc, v ∉ (pre ++ (c, n - 1) :: post).map Prod.fst := by
        intro v hv
        rw [hk1]
        exact hz2 v hv
      obtain ⟨counts', zeroAcc', hrun, hnd', hvals', hmem', hzn', hz2', hz3', hcons'⟩ :=
        ih (c1 ++ [c]) (pre ++ (c, n - 1) :: post) zeroAcc hsucc' hnd1 hvals1 hmem1 hzn hz21
      refine ⟨counts', zeroAcc', ?_, hnd', ?_, ?_, hzn', hz2', hz3', ?_⟩
      · rw [processChildren, hdec]
        dsimp only
        rw [if_neg (by simp)]
        exact hrun
      · intro p hp
        have h := hvals' p hp
        rwa [hceq] at h
      · intro v
        have h := hmem' v
        rwa [hceq] at h
      · intro v
        rw [hcons' v, hk1]

/-! ### processGen characterization -/

theorem processGen_spec (g : Graph) (hwfe : g.edges.Nodup)
    (hwft : ∀ e ∈ g.edges, e.2 ∈ nodeKeys g) :
    ∀ (todo D : List String) (counts : List (String × Nat)) (zeroAcc gen0 : List String),
      todo.Nodup →
      (∀ v ∈ todo, v ∉ D) →
      (∀ v ∈ todo, v ∈ gen0) →
      (counts.map Prod.fst).Nodup →
      (∀ p ∈ counts, p.2 = pendingIn g D p.1 ∧ 0 < p.2) →
      (∀ v, v ∈ counts.map Prod.fst ↔ v ∈ nodeKeys g ∧ 0 < pendingIn g D v) →
      zeroAcc.Nodup →
      (∀ v ∈ zeroAcc, v ∉ counts.map Prod.fst) →
      (∀ v ∈ zeroAcc, ∃ w ∈ gen0, (w, v) ∈ g.edges) →
      ∃ counts' zeroAcc',
        processGen g counts zeroAcc todo = some (counts', zeroAcc') ∧
        (counts'.map Prod.fst).Nodup ∧
        (∀ p ∈ counts', p.2 = pendingIn g (D ++ todo) p.1 ∧ 0 < p.2) ∧
        (∀ v, v ∈ counts'.map Prod.fst ↔ v ∈ nodeKeys g ∧ 0 < pendingIn g (D ++ todo) v) ∧
        zeroAcc'.Nodup ∧
        (∀ v ∈ zeroAcc', v ∉ counts'.map Prod.fst) ∧
        (∀ v ∈ zeroAcc', ∃ w ∈ gen0, (w, v) ∈ g.edges) ∧
        (∀ v, (v ∈ zeroAcc' ∨ v ∈ counts'.map Prod.fst) ↔
          (v ∈ zeroAcc ∨ v ∈ counts.map Prod.fst)) := by
  intro todo
  induction todo with
  | nil =>
    intro D counts zeroAcc gen0 _ _ _ hnd hvals hmem hzn hz2 hz3
    refine ⟨counts, zeroAcc, rfl, hnd, ?_, ?_, hzn, hz2, hz3, fun v => Iff.rfl⟩
    · simpa using hvals
    · simpa using hmem
  | cons node rest ih =>
    intro D counts zeroAcc gen0 hndt hnD hgen0 hnd hvals hmem hzn hz2 hz3
    have hnodeD : node ∉ D := hnD node (by simp)
    obtain ⟨counts₁, zeroAcc₁, hrun₁, hnd₁, hvals₁, hmem₁, hzn₁, hz2₁, hz3₁, hcons₁⟩ :=
      processChildren_spec g node D hwfe hwft hnodeD (successors g node) [] counts zeroAcc
        (by simp) hnd
        (fun p hp => ⟨by simpa using (hvals p hp).1, (hvals p hp).2⟩)
        (fun v => by simpa using hmem v)
        hzn hz2
    have hpend₁ : ∀ v, pendingIn g (D ++ [node]) v =
        pendingIn g D v - (if v ∈ successors g node then 1 else 0) :=
      pendingIn_append_single hwfe hnodeD
    have hvals₁' : ∀ p ∈ counts₁, p.2 = pendingIn g (D ++ [node]) p.1 ∧ 0 < p.2 := by
      intro p hp
      obtain ⟨hv, hvp⟩ := hvals₁ p hp
      refine ⟨?_, hvp⟩
      rw [hpend₁ p.1, hv]
      simp
    have hmem₁' : ∀ v, v ∈ counts₁.map Prod.fst ↔
        v ∈ nodeKeys g ∧ 0 < pendingIn g (D ++ [node]) v := by
      intro v
      rw [hmem₁ v, hpend₁ v]
      constructor
      · rintro ⟨h1, h2⟩
        exact ⟨h1, by simpa using h2⟩
      · rintro ⟨h1, h2⟩
        exact ⟨h1, by simpa using h2⟩
    obtain ⟨counts', zeroAcc', hrun', hnd', hvals', hmem', hzn', hz2', hz3', hcons'⟩ :=
      ih (D ++ [node]) counts₁ zeroAcc₁ gen0
        hndt.of_cons
        (by
          intro v hv
          simp only [List.mem_append, List.mem_singleton]
          rintro (h | h)
          · exact hnD v (by simp [hv]) h
          · exact (List.nodup_cons.mp hndt).1 (h ▸ hv))
        (fun v hv => hgen0 v (by simp [hv]))
        hnd₁ hvals₁' hmem₁' hzn₁ hz2₁
        (by
          intro v hv
          rcases hz3₁ v hv with h | h
          · exact hz3 v h
          · exact ⟨node, hgen0 node (by simp), h⟩)
    have hDeq : (D ++ [node]) ++ rest = D ++ node :: rest := by simp
    refine ⟨counts', zeroAcc', ?_, hnd', ?_, ?_, hzn', hz2', hz3', ?_⟩
    · rw [processGen, hrun₁]
      exact hrun'
    · intro p hp
      have h := hvals' p hp
      rwa [hDeq] at h
    · intro v
      have h := hmem' v
      rwa [hDeq] at h
    · intro v
      rw [hcons' v, hcons₁ v]

/-! ### The Kahn loop invariant and its main characterization -/

/-- Layer structure of the generation lists emitted by the loop, relative to
the already-emitted nodes `done` and the previous generation `prev`: each
generation is nonempty, all predecessors of its nodes are already emitted, and
each of its nodes has a predecessor in the previous generation — except in the
very first generation of a run, where `prev = done = []` and the nodes have no
predecessors at all. -/
inductive Gens (g : Graph) : List String → List String → List (List String) → Prop where
  | nil : ∀ done prev, Gens g done prev []
  | cons : ∀ (done prev gen : List String) (gens : List (List String)),
      gen ≠ [] →
      (∀ v ∈ gen, ∀ u, (u, v) ∈ g.edges → u ∈ done) →
      (∀ v ∈ gen, (∃ u ∈ prev, (u, v) ∈ g.edges) ∨ (prev = [] ∧ done = [])) →
      Gens g (done ++ gen) gen gens →
      Gens g done prev (gen :: gens)

/-- The loop invariant of `kahnLoopF`: `done` are the nodes of emitted
generations, `frontier` the current generation, and `counts` the
`indegree_map`, which holds exactly the nodes that still wait for some
predecessor outside `done`, with the count of such predecessors. -/
structure KahnInv (g : Graph) (done prev : List String) (counts : List (String × Nat))
    (frontier : List String) : Prop where
  nd : (done ++ frontier ++ counts.map Prod.fst).Nodup
  cover : ∀ v ∈ nodeKeys g, v ∈ done ∨ v ∈ frontier ∨ v ∈ counts.map Prod.fst
  sub_done : ∀ v ∈ done, v ∈ nodeKeys g
  sub_frontier : ∀ v ∈ frontier, v ∈ nodeKeys g
  vals : ∀ p ∈ counts, p.2 = pendingIn g done p.1 ∧ 0 < p.2
  mem_iff : ∀ v, v ∈ counts.map Prod.fst ↔ v ∈ nodeKeys g ∧ 0 < pendingIn g done v
  fr_preds : ∀ v ∈ frontier, ∀ u, (u, v) ∈ g.edges → u ∈ done
  fr_prev : ∀ v ∈ frontier, (∃ u ∈ prev, (u, v) ∈ g.edges) ∨ (prev = [] ∧ done = [])

theorem kahnLoopF_main (g : Graph) (hwf : WF g) :
    ∀ (fuel : Nat) (counts : List (String × Nat)) (frontier done prev : List String),
      counts.length + frontier.length < fuel →
      KahnInv g done prev counts frontier →
      (∃ gens, kahnLoopF g fuel counts frontier = .ok gens ∧
        Gens g done prev gens ∧
        (∀ v, v ∈ gens.flatten ↔ v ∈ frontier ∨ v ∈ counts.map Prod.fst) ∧
        (done ++ gens.flatten).Nodup) ∨
      (kahnLoopF g fuel counts frontier = .error .unfeasible ∧
        ∃ R : List String, R ≠ [] ∧ ∀ v ∈ R, ∃ u ∈ R, (u, v) ∈ g.edges) := by
  intro fuel
  induction fuel with
  | zero =>
    intro counts frontier done prev hlt _
    exact absurd hlt (by omega)
  | succ fuel ih =>
    intro counts frontier done prev hlt inv
    obtain ⟨hwfn, hwfe, hwfend⟩ := hwf
    have hnd_df : (done ++ frontier).Nodup := inv.nd.sublist
      ((List.sublist_append_left _ _).trans (by rw [List.append_assoc]))
    have hnd_f : frontier.Nodup :=
      ((List.nodup_append.mp (List.nodup_append.mp inv.nd).1).2.1)
    have hnd_c : (counts.map Prod.fst).Nodup := (List.nodup_append.mp inv.nd).2.1
    cases frontier with
    | nil =>
      by_cases hce : counts.isEmpty
      · left
        have hcnil : counts = [] := List.isEmpty_iff.mp hce
        refine ⟨[], ?_, Gens.nil done prev, ?_, ?_⟩
        · rw [kahnLoopF, if_pos hce]
        · intro v; subst hcnil; simp
        · simpa using (List.nodup_append.mp inv.nd).1.sublist (List.sublist_append_left _ _)
      · right
        refine ⟨?_, counts.map Prod.fst, ?_, ?_⟩
        · rw [kahnLoopF, if_neg hce]
        · intro h
          exact hce (by simp [List.map_eq_nil_iff.mp h, List.isEmpty_iff])
        · intro v hv
          obtain ⟨hvk, hvp⟩ := (inv.mem_iff v).mp hv
          obtain ⟨u, hedge, hud⟩ := pendingIn_pos.mp hvp
          have huk : u ∈ nodeKeys g := (hwfend (u, v) hedge).1
          rcases inv.cover u huk with h | h | h
          · exact absurd h hud
          · exact absurd h (by simp)
          · exact ⟨u, h, hedge⟩
    | cons node rest =>
      obtain ⟨counts₁, next, hrun₁, hnd₁, hvals₁, hmem₁, hzn₁, hz2₁, hz3₁, hcons₁⟩ :=
        processGen_spec g hwfe (fun e he => (hwfend e he).2) (node :: rest) done counts []
          (node :: rest) hnd_f
          (by
            intro v hv hvd
            exact (List.disjoint_of_nodup_append hnd_df) hvd hv)
          (fun v hv => hv)
          hnd_c inv.vals inv.mem_iff (by simp) (by simp) (by simp)
      have hsub_next : ∀ v ∈ next, v ∈ counts.map Prod.fst := by
        intro v hv
        rcases (hcons₁ v).mp (Or.inl hv) with h | h
        · exact absurd h (by simp)
        · exact h
      have hsub_c₁ : ∀ v ∈ counts₁.map Prod.fst, v ∈ counts.map Prod.fst := by
        intro v hv
        rcases (hcons₁ v).mp (Or.inr hv) with h | h
        · exact absurd h (by simp)
        · exact h
      have hlen : counts₁.length + next.length = counts.length := by
        have hperm : List.Perm (next ++ counts₁.map Prod.fst) (counts.map Prod.fst) := by
          refine (List.perm_ext_iff_of_nodup ?_ hnd_c).mpr ?_
          · exact List.nodup_append.mpr ⟨hzn₁, hnd₁, fun a ha => hz2₁ a ha⟩
          · intro a
            rw [List.mem_append]
            constructor
            · rintro (h | h)
              · exact hsub_next a h
              · exact hsub_c₁ a h
            · intro h
              rcases (hcons₁ a).mpr (Or.inr h) with h1 | h1
              · exact Or.inl h1
              · exact Or.inr h1
        have := hperm.length_eq
        simp only [List.length_append, List.length_map] at this
        omega
      have hnd_all : ((done ++ (node :: rest)) ++ counts.map Prod.fst).Nodup := inv.nd
      have hd_disj : ∀ v ∈ done, v ∉ counts.map Prod.fst := by
        intro v hv
        exact List.disjoint_of_nodup_append hnd_all (List.mem_append.mpr (Or.inl hv))
      have hf_disj : ∀ v ∈ (node :: rest), v ∉ counts.map Prod.fst := by
        intro v hv
        exact List.disjoint_of_nodup_append hnd_all (List.mem_append.mpr (Or.inr hv))
      have hnext_keys : ∀ v ∈ next, v ∈ nodeKeys g := by
        intro v hv
        exact ((inv.mem_iff v).mp (hsub_next v hv)).1
      have inv' : KahnInv g (done ++ (node :: rest)) (node :: rest) counts₁ next := by
        refine ⟨?_, ?_, ?_, hnext_keys, hvals₁, hmem₁, ?_, ?_⟩
        · rw [List.append_assoc]
          refine List.nodup_append.mpr ⟨hnd_df, ?_, ?_⟩
          · exact List.nodup_append.mpr ⟨hzn₁, hnd₁, fun a ha => hz2₁ a ha⟩
          · intro a ha hb
            have hac : a ∈ counts.map Prod.fst := by
              rcases List.mem_append.mp hb with h | h
              · exact hsub_next a h
              · exact hsub_c₁ a h
            rcases List.mem_append.mp ha with h | h
            · exact hd_disj a h hac
            · exact hf_disj a h hac
        · intro v hv
          rcases inv.cover v hv with h | h | h
          · exact Or.inl (List.mem_append.mpr (Or.inl h))
          · exact Or.inl (List.mem_append.mpr (Or.inr h))
          · rcases (hcons₁ v).mpr (Or.inr h) with h1 | h1
            · exact Or.inr (Or.inl h1)
            · exact Or.inr (Or.inr h1)
        · intro v hv
          rcases List.mem_append.mp hv with h | h
          · exact inv.sub_done v h
          · exact inv.sub_frontier v h
        · intro v hv u hedge
          have hvk : v ∈ nodeKeys g := hnext_keys v hv
          have hnotc : v ∉ counts₁.map Prod.fst := hz2₁ v hv
          have hpend0 : pendingIn g (done ++ (node :: rest)) v = 0 := by
            by_contra hne
            exact hnotc ((hmem₁ v).mpr ⟨hvk, Nat.pos_of_ne_zero hne⟩)
          exact pendingIn_zero.mp hpend0 u hedge
        · intro v hv
          exact Or.inl (hz3₁ v hv)
      have hmea : counts₁.length + next.length < fuel := by
        simp only [List.length_cons] at hlt
        omega
      have hstep : kahnLoopF g (fuel + 1) counts (node :: rest) =
          (kahnLoopF g fuel counts₁ next).map (fun gens => (node :: rest) :: gens) := by
        rw [kahnLoopF, hrun₁]
      rcases ih counts₁ next (done ++ (node :: rest)) (node :: rest) hmea inv' with
        ⟨gens₁, hok, hGens, hflat, hnodup⟩ | ⟨herr, R, hRne, hRcore⟩
      · left
        refine ⟨(node :: rest) :: gens₁, ?_, ?_, ?_, ?_⟩
        · rw [hstep, hok]; rfl
        · exact Gens.cons done prev (node :: rest) gens₁ (by simp)
            inv.fr_preds inv.fr_prev hGens
        · intro v
          simp only [List.flatten_cons, List.mem_append]
          constructor
          · rintro (h | h)
            · exact Or.inl h
            · rcases (hflat v).mp h with h1 | h1
              · exact Or.inr (hsub_next v h1)
              · exact Or.inr (hsub_c₁ v h1)
          · rintro (h | h)
            · exact Or.inl h
            · rcases (hcons₁ v).mpr (Or.inr h) with h1 | h1
              · exact Or.inr ((hflat v).mpr (Or.inl h1))
              · exact Or.inr ((hflat v).mpr (Or.inr h1))
        · simp only [List.flatten_cons]
          rw [← List.append_assoc]
          exact hnodup
      · right
        refine ⟨?_, R, hRne, hRcore⟩
        rw [hstep, herr]
        rfl

/-! ### The initial state satisfies the invariant -/

theorem filterMap_indeg_keys (g : Graph) : ∀ l : List String,
    (l.filterMap (fun v => if 0 < inDegree g v then some (v, inDegree g v) else none)).map
        Prod.fst =
      l.filter (fun v => decide (0 < inDegree g v)) := by
  intro l
  induction l with
  | nil => rfl
  | cons a t iht =>
    rw [List.filterMap_cons, List.filter_cons]
    by_cases h : 0 < inDegree g a
    · rw [if_pos h, if_pos (by simpa using h)]
      simp only [List.map_cons, iht]
    · rw [if_neg h, if_neg (by simpa using h)]
      exact iht

theorem initialCounts_keys (g : Graph) :
    (initialCounts g).map Prod.fst =
      (nodeKeys g).filter (fun v => decide (0 < inDegree g v)) :=
  filterMap_indeg_keys g (nodeKeys g)

theorem mem_initialCounts {g : Graph} {p : String × Nat} :
    p ∈ initialCounts g ↔ p.1 ∈ nodeKeys g ∧ 0 < inDegree g p.1 ∧ p.2 = inDegree g p.1 := by
  unfold initialCounts
  rw [List.mem_filterMap]
  constructor
  · rintro ⟨a, ha, hfa⟩
    by_cases h : 0 < inDegree g a
    · rw [if_pos h] at hfa
      injection hfa with hfa
      rw [← hfa]
      exact ⟨ha, h, rfl⟩
    · rw [if_neg h] at hfa
      cases hfa
  · rintro ⟨h1, h2, h3⟩
    refine ⟨p.1, h1, ?_⟩
    rw [if_pos h2, ← h3]

theorem mem_initialZero {g : Graph} {v : String} :
    v ∈ initialZero g ↔ v ∈ nodeKeys g ∧ inDegree g v = 0 := by
  unfold initialZero
  rw [List.mem_filter]
  simp

theorem initialInv (g : Graph) (hwf : WF g) :
    KahnInv g [] [] (initialCounts g) (initialZero g) := by
  obtain ⟨hwfn, hwfe, hwfend⟩ := hwf
  refine ⟨?_, ?_, ?_, ?_, ?_, ?_, ?_, ?_⟩
  · simp only [List.nil_append]
    rw [initialCounts_keys]
    refine List.nodup_append.mpr ⟨hwfn.filter _, hwfn.filter _, ?_⟩
    intro a ha hb
    have h1 := (List.mem_filter.mp ha).2
    have h2 := (List.mem_filter.mp hb).2
    simp only [decide_eq_true_eq] at h1 h2
    omega
  · intro v hv
    by_cases h : inDegree g v = 0
    · exact Or.inr (Or.inl (mem_initialZero.mpr ⟨hv, h⟩))
    · refine Or.inr (Or.inr ?_)
      rw [initialCounts_keys]
      exact List.mem_filter.mpr ⟨hv, by simp; omega⟩
  · intro v hv
    exact absurd hv (by simp)
  · intro v hv
    exact (mem_initialZero.mp hv).1
  · intro p hp
    obtain ⟨h1, h2, h3⟩ := mem_initialCounts.mp hp
    rw [pendingIn_nil]
    exact ⟨h3, by omega⟩
  · intro v
    rw [initialCounts_keys, List.mem_filter, pendingIn_nil]
    simp
  · intro v hv u hedge
    obtain ⟨_, h0⟩ := mem_initialZero.mp hv
    have : pendingIn g [] v = 0 := by rw [pendingIn_nil]; exact h0
    exact pendingIn_zero.mp this u hedge
  · intro v _
    exact Or.inr ⟨rfl, rfl⟩

theorem topological_generations_spec (g : Graph) (hwf : WF g) :
    (∃ gens, topological_generations g = .ok gens ∧ Gens g [] [] gens ∧
      (∀ v, v ∈ gens.flatten ↔ v ∈ nodeKeys g) ∧ gens.flatten.Nodup) ∨
    (topological_generations g = .error .unfeasible ∧
      ∃ R : List String, R ≠ [] ∧ ∀ v ∈ R, ∃ u ∈ R, (u, v) ∈ g.edges) := by
  have hmain := kahnLoopF_main g hwf ((initialCounts g).length + (initialZero g).length + 1)
    (initialCounts g) (initialZero g) [] [] (by omega) (initialInv g hwf)
  rcases hmain with ⟨gens, hok, hGens, hflat, hnodup⟩ | ⟨herr, R, hRne, hRcore⟩
  · left
    refine ⟨gens, hok, hGens, ?_, by simpa using hnodup⟩
    intro v
    rw [hflat v]
    constructor
    · rintro (h | h)
      · exact (mem_initialZero.mp h).1
      · exact ((initialInv g hwf).mem_iff v).mp h |>.1
    · intro h
      rcases (initialInv g hwf).cover v h with h1 | h1 | h1
      · exact absurd h1 (by simp)
      · exact Or.inl h1
      · exact Or.inr h1
  · right
    exact ⟨herr, R, hRne, hRcore⟩

/-! ### A nonempty set where every node has an in-neighbour contains a cycle -/

theorem exists_cycle_of_core (g : Graph) (R : List String) (hne : R ≠ [])
    (hcore : ∀ v ∈ R, ∃ u ∈ R, (u, v) ∈ g.edges) :
    ∃ v, Relation.TransGen (EdgeRel g) v v := by
  classical
  let f : String → String := fun v =>
    if h : ∃ u ∈ R, (u, v) ∈ g.edges then h.choose else v
  have hf : ∀ v ∈ R, f v ∈ R ∧ (f v, v) ∈ g.edges := by
    intro v hv
    have hex := hcore v hv
    have hfv : f v = hex.choose := by
      show (if h : ∃ u ∈ R, (u, v) ∈ g.edges then h.choose else v) = hex.choose
      rw [dif_pos hex]
    obtain ⟨h1, h2⟩ := hex.choose_spec
    rw [hfv]
    exact ⟨h1, h2⟩
  obtain ⟨v₀, hv₀⟩ : ∃ v, v ∈ R := by
    cases R with
    | nil => exact absurd rfl hne
    | cons a t => exact ⟨a, by simp⟩
  have hiter : ∀ n, f^[n] v₀ ∈ R := by
    intro n
    induction n with
    | zero => simpa using hv₀
    | succ n ihn =>
      rw [Function.iterate_succ_apply']
      exact (hf _ ihn).1
  have hstep : ∀ n, Relation.TransGen (EdgeRel g) (f^[n + 1] v₀) (f^[n] v₀) := by
    intro n
    rw [Function.iterate_succ_apply']
    exact Relation.TransGen.single ((hf _ (hiter n)).2)
  have hchain : ∀ d m, Relation.TransGen (EdgeRel g) (f^[m + d + 1] v₀) (f^[m] v₀) := by
    intro d
    induction d with
    | zero => intro m; exact hstep m
    | succ d ihd =>
      intro m
      have h1 : Relation.TransGen (EdgeRel g) (f^[(m + 1) + d + 1] v₀) (f^[m + 1] v₀) := ihd (m + 1)
      have h2 := hstep m
      have heqn : (m + 1) + d + 1 = m + (d + 1) + 1 := by omega
      rw [heqn] at h1
      exact h1.trans h2
  set S : Finset String := R.toFinset with hS
  have hlt : S.card < (Finset.univ : Finset (Fin (S.card + 1))).card := by simp
  obtain ⟨i, _, j, _, hij, heq⟩ :=
    Finset.exists_ne_map_eq_of_card_lt_of_maps_to hlt
      (fun (n : Fin (S.card + 1)) _ => List.mem_toFinset.mpr (hiter n.1))
  have hijne : i.1 ≠ j.1 := fun h => hij (Fin.ext h)
  rcases Nat.lt_or_ge i.1 j.1 with h | h
  · obtain ⟨d, hd⟩ : ∃ d, j.1 = i.1 + d + 1 := ⟨j.1 - i.1 - 1, by omega⟩
    refine ⟨f^[i.1] v₀, ?_⟩
    have hc := hchain d i.1
    rw [← hd] at hc
    rw [← heq] at hc
    exact hc
  · have h' : j.1 < i.1 := by omega
    obtain ⟨d, hd⟩ : ∃ d, i.1 = j.1 + d + 1 := ⟨i.1 - j.1 - 1, by omega⟩
    refine ⟨f^[j.1] v₀, ?_⟩
    have hc := hchain d j.1
    rw [← hd] at hc
    rw [heq] at hc
    exact hc

/-! ### The emitted generations respect the edges -/

/-- The index of the round of `rounds` (or the generation) containing `v`. -/
def roundIdx (R : List (List String)) (v : String) : Nat :=
  R.findIdx (fun r => decide (v ∈ r))

theorem roundIdx_cons_self {gen : List String} {gens : List (List String)} {v : String}
    (hv : v ∈ gen) : roundIdx (gen :: gens) v = 0 := by
  unfold roundIdx
  rw [List.findIdx_cons]
  simp [hv]

theorem roundIdx_cons_ne {gen : List String} {gens : List (List String)} {v : String}
    (hv : v ∉ gen) : roundIdx (gen :: gens) v = roundIdx gens v + 1 := by
  unfold roundIdx
  rw [List.findIdx_cons]
  simp [hv]

theorem roundIdx_zero_mem {gen : List String} {gens : List (List String)} {v : String}
    (h : roundIdx (gen :: gens) v = 0) (hv : v ∈ (gen :: gens).flatten) : v ∈ gen := by
  by_contra hng
  rw [roundIdx_cons_ne hng] at h
  omega

theorem Gens_edge_lt (g : Graph) :
    ∀ {done prev : List String} {gens : List (List String)},
      Gens g done prev gens → (done ++ gens.flatten).Nodup →
      ∀ u v, (u, v) ∈ g.edges → v ∈ gens.flatten →
        u ∈ done ∨ (u ∈ gens.flatten ∧ roundIdx gens u < roundIdx gens v) := by
  intro done prev gens hG
  induction hG with
  | nil => intro _ u v _ hv; exact absurd hv (by simp)
  | cons done prev gen gens hne hpreds hprev hrest ih =>
    intro hnd u v hedge hv
    have hnd' : ((done ++ gen) ++ gens.flatten).Nodup := by
      rw [List.append_assoc]
      simpa using hnd
    have hdisj : ∀ a ∈ gen, a ∉ gens.flatten := by
      intro a ha
      have h2 : (gen ++ gens.flatten).Nodup := by
        refine hnd.sublist ?_
        simpa using (List.sublist_append_right done ((gen :: gens).flatten)).trans
          (by simp)
      exact List.disjoint_of_nodup_append h2 ha
    simp only [List.flatten_cons, List.mem_append] at hv
    rcases hv with hv | hv
    · exact Or.inl (hpreds v hv u hedge)
    · have hvgen : v ∉ gen := fun h => hdisj v h hv
      rcases ih hnd' u v hedge hv with h | ⟨h1, h2⟩
      · rcases List.mem_append.mp h with h | h
        · exact Or.inl h
        · refine Or.inr ⟨by simp [h], ?_⟩
          rw [roundIdx_cons_self h, roundIdx_cons_ne hvgen]
          omega
      · have hugen : u ∉ gen := fun h => hdisj u h h1
        refine Or.inr ⟨by simp [h1], ?_⟩
        rw [roundIdx_cons_ne hugen, roundIdx_cons_ne hvgen]
        omega

theorem transGen_roundIdx_lt (g : Graph) (hwf : WF g) {gens : List (List String)}
    (hG : Gens g [] [] gens) (hnd : gens.flatten.Nodup)
    (hcov : ∀ v, v ∈ gens.flatten ↔ v ∈ nodeKeys g) :
    ∀ a b, Relation.TransGen (EdgeRel g) a b →
      b ∈ gens.flatten ∧ a ∈ gens.flatten ∧ roundIdx gens a < roundIdx gens b := by
  intro a b htg
  induction htg with
  | @single b' hedge =>
    have hb : b' ∈ gens.flatten := (hcov b').mpr (hwf.2.2 _ hedge).2
    rcases Gens_edge_lt g hG (by simpa using hnd) a b' hedge hb with h | ⟨h1, h2⟩
    · exact absurd h (by simp)
    · exact ⟨hb, h1, h2⟩
  | @tail b' c' _ hedge ihtail =>
    obtain ⟨hb, ha, hab⟩ := ihtail
    have hc : c' ∈ gens.flatten := (hcov c').mpr (hwf.2.2 _ hedge).2
    rcases Gens_edge_lt g hG (by simpa using hnd) b' c' hedge hc with h | ⟨h1, h2⟩
    · exact absurd h (by simp)
    · exact ⟨hc, ha, hab.trans h2⟩

/-! ### Dichotomy: acyclic graphs succeed, cyclic graphs raise -/

theorem topGens_ok_of_acyclic (g : Graph) (hwf : WF g) (hac : Acyclic g) :
    ∃ gens, topological_generations g = .ok gens ∧ Gens g [] [] gens ∧
      (∀ v, v ∈ gens.flatten ↔ v ∈ nodeKeys g) ∧ gens.flatten.Nodup := by
  rcases topological_generations_spec g hwf with h | ⟨_, R, hRne, hRcore⟩
  · exact h
  · obtain ⟨v, hv⟩ := exists_cycle_of_core g R hRne hRcore
    exact absurd hv (hac v)

theorem topGens_error_of_cycle (g : Graph) (hwf : WF g)
    (hcyc : ∃ v, Relation.TransGen (EdgeRel g) v v) :
    topological_generations g = .error .unfeasible := by
  rcases topological_generations_spec g hwf with ⟨gens, _, hG, hcov, hnd⟩ | ⟨herr, _⟩
  · obtain ⟨v, hv⟩ := hcyc
    obtain ⟨_, _, hlt⟩ := transGen_roundIdx_lt g hwf hG hnd hcov v v hv
    omega
  · exact herr

/-! ### The greedy round builder reproduces the generations -/

theorem roundsLoop_within (g : Graph) :
    ∀ (gen' : List String) (rest : List String) (rs : List (List String))
      (current : List String),
      current ≠ [] →
      (∀ v ∈ gen', ∀ u, (u, v) ∈ g.edges → ∃ r ∈ rs, u ∈ r) →
      roundsLoop g rs current (gen' ++ rest) = roundsLoop g rs (current ++ gen') rest := by
  intro gen'
  induction gen' with
  | nil => intro rest rs current _ _; simp
  | cons k t ih =>
    intro rest rs current hcur hpreds
    have hempty : current.isEmpty = false := by
      cases current with
      | nil => exact absurd rfl hcur
      | cons a b => rfl
    have hall : (predecessors g k).all (fun dep => rs.any (fun r => decide (dep ∈ r))) = true := by
      rw [List.all_eq_true]
      intro dep hdep
      obtain ⟨r, hr, hur⟩ := hpreds k (by simp) dep (mem_predecessors.mp hdep)
      rw [List.any_eq_true]
      exact ⟨r, hr, by simpa using hur⟩
    have hcond : (current.isEmpty ||
        (predecessors g k).all (fun dep => rs.any (fun r => decide (dep ∈ r)))) = true := by
      rw [hempty, hall]
      rfl
    show roundsLoop g rs current (k :: (t ++ rest)) = _
    rw [roundsLoop, if_pos hcond]
    rw [ih rest rs (current ++ [k]) (by simp) (fun v hv => hpreds v (by simp [hv]))]
    rw [List.append_assoc]
    rfl

theorem roundsLoop_gens (g : Graph) :
    ∀ (gens : List (List String)) (done current : List String) (rs : List (List String)),
      Gens g done current gens →
      current ≠ [] →
      (∀ v, v ∈ done ↔ v ∈ rs.flatten ∨ v ∈ current) →
      ((rs.flatten ++ current) ++ gens.flatten).Nodup →
      roundsLoop g rs current gens.flatten = rs ++ current :: gens := by
  intro gens
  induction gens with
  | nil =>
    intro done current rs _ hcur _ _
    have hempty : current.isEmpty = false := by
      cases current with
      | nil => exact absurd rfl hcur
      | cons a b => rfl
    show roundsLoop g rs current [] = _
    rw [roundsLoop, hempty]
    rfl
  | cons gen gens' ih =>
    intro done current rs hG hcur hdone hnd
    cases hG with
    | cons _ _ _ _ hne hpreds hprev hrest =>
      cases hgen : gen with
      | nil => exact absurd hgen hne
      | cons k t =>
        subst hgen
        -- the first node of the new generation closes the current round
        obtain ⟨u, hu, huedge⟩ : ∃ u ∈ current, (u, k) ∈ g.edges := by
          rcases hprev k (by simp) with h | ⟨h1, _⟩
          · exact h
          · exact absurd h1 hcur
        have hu_not_rs : u ∉ rs.flatten := by
          have hnd1 : (rs.flatten ++ current).Nodup :=
            hnd.sublist (List.sublist_append_left _ _)
          exact fun hmem => List.disjoint_of_nodup_append hnd1 hmem hu
        have hempty : current.isEmpty = false := by
          cases current with
          | nil => exact absurd rfl hcur
          | cons a b => rfl
        have hnall : ((predecessors g k).all
            (fun dep => rs.any (fun r => decide (dep ∈ r)))) = false := by
          rw [List.all_eq_false]
          refine ⟨u, mem_predecessors.mpr huedge, ?_⟩
          rw [Bool.not_eq_true, List.any_eq_false]
          intro r hr hur
          exact hu_not_rs (List.mem_flatten.mpr ⟨r, hr, by simpa using hur⟩)
        have hcond : (current.isEmpty ||
            (predecessors g k).all (fun dep => rs.any (fun r => decide (dep ∈ r)))) = false := by
          rw [hempty, hnall]
          rfl
        show roundsLoop g rs current (k :: (t ++ gens'.flatten)) = _
        rw [roundsLoop, hcond]
        show roundsLoop g (rs ++ [current]) [k] (t ++ gens'.flatten) = _
        rw [roundsLoop_within g t gens'.flatten (rs ++ [current]) [k] (by simp) ?_]
        · have hres := ih (done ++ k :: t) (k :: t) (rs ++ [current]) hrest (by simp) ?_ ?_
          · rw [show [k] ++ t = k :: t from rfl, hres]
            simp
          · intro v
            constructor
            · intro hv
              rcases List.mem_append.mp hv with h | h
              · rcases (hdone v).mp h with h1 | h1
                · refine Or.inl ?_
                  rw [List.flatten_append]
                  exact List.mem_append.mpr (Or.inl h1)
                · refine Or.inl ?_
                  rw [List.flatten_append]
                  refine List.mem_append.mpr (Or.inr ?_)
                  simpa using h1
              · exact Or.inr h
            · intro hv
              rcases hv with h | h
              · simp only [List.flatten_append, List.flatten_cons, List.flatten_nil,
                  List.append_nil, List.mem_append] at h
                rcases h with h1 | h1
                · exact List.mem_append.mpr (Or.inl ((hdone v).mpr (Or.inl h1)))
                · exact List.mem_append.mpr (Or.inl ((hdone v).mpr (Or.inr h1)))
              · exact List.mem_append.mpr (Or.inr h)
          · have heq : ((rs ++ [current]).flatten ++ k :: t) ++ gens'.flatten =
                (rs.flatten ++ current) ++ (k :: t ++ gens'.flatten) := by
              simp [List.append_assoc]
            rw [heq]
            simpa using hnd
        · intro v hv w hedge
          have hw : w ∈ done := hpreds v (by simp [hv]) w hedge
          rcases (hdone w).mp hw with h | h
          · obtain ⟨r, hr, hwr⟩ := List.mem_flatten.mp h
            exact ⟨r, by simp [hr], hwr⟩
          · exact ⟨current, by simp, h⟩

theorem roundsLoop_top (g : Graph) (gens : List (List String))
    (hG : Gens g [] [] gens) (hnd : gens.flatten.Nodup) :
    roundsLoop g [] [] gens.flatten = gens := by
  cases hG with
  | nil => rfl
  | cons _ _ gen gens' hne hpreds hprev hrest =>
    cases hgen : gen with
    | nil => exact absurd hgen hne
    | cons k t =>
      subst hgen
      show roundsLoop g [] [] (k :: (t ++ gens'.flatten)) = _
      rw [roundsLoop]
      show roundsLoop g [] [k] (t ++ gens'.flatten) = _
      rw [roundsLoop_within g t gens'.flatten [] [k] (by simp) ?_]
      · have hres := roundsLoop_gens g gens' (k :: t) (k :: t) [] ?_ (by simp) ?_ ?_
        · rw [show [k] ++ t = k :: t from rfl, hres]
          rfl
        · simpa using hrest
        · intro v; simp
        · simpa using hnd
      · intro v hv w hedge
        exact absurd (hpreds v (by simp [hv]) w hedge) (by simp)

theorem rounds_ok_spec (g : Graph) (hwf : WF g) (hac : Acyclic g) :
    ∃ gens, rounds g = .ok gens ∧ Gens g [] [] gens ∧
      (∀ v, v ∈ gens.flatten ↔ v ∈ nodeKeys g) ∧ gens.flatten.Nodup := by
  obtain ⟨gens, hok, hG, hcov, hnd⟩ := topGens_ok_of_acyclic g hwf hac
  refine ⟨gens, ?_, hG, hcov, hnd⟩
  have h1 : rounds g = .ok (roundsLoop g [] [] gens.flatten) := by
    unfold rounds sorted_issues
    rw [hok]
    rfl
  rw [h1, roundsLoop_top g gens hG hnd]

theorem Gens_ne_nil (g : Graph) :
    ∀ {done prev : List String} {gens : List (List String)},
      Gens g done prev gens → [] ∉ gens := by
  intro done prev gens hG
  induction hG with
  | nil => simp
  | cons done prev gen gens hne _ _ _ ih =>
    intro hmem
    rcases List.mem_cons.mp hmem with h | h
    · exact hne h.symm
    · exact ih h

theorem foldr_max_le {l : List Nat} {b : Nat} (h : ∀ x ∈ l, x ≤ b) : l.foldr max 0 ≤ b := by
  induction l with
  | nil => simp
  | cons a t ih =>
    simp only [List.foldr_cons]
    exact max_le (h a (by simp)) (ih fun x hx => h x (by simp [hx]))

theorem le_foldr_max {l : List Nat} {x : Nat} (h : x ∈ l) : x ≤ l.foldr max 0 := by
  induction l with
  | nil => exact absurd h (by simp)
  | cons a t ih =>
    simp only [List.foldr_cons]
    rcases List.mem_cons.mp h with h1 | h1
    · subst h1
      exact le_max_left _ _
    · exact (ih h1).trans (le_max_right _ _)

theorem Gens_minimal (g : Graph) :
    ∀ {done prev : List String} {gens : List (List String)},
      Gens g done prev gens → (done ++ gens.flatten).Nodup →
      ∀ v ∈ gens.flatten, roundIdx gens v = 0 ∨
        ∃ u, (u, v) ∈ g.edges ∧ u ∈ gens.flatten ∧ roundIdx gens u + 1 = roundIdx gens v := by
  intro done prev gens hG
  induction hG with
  | nil => intro _ v hv; exact absurd hv (by simp)
  | cons done prev gen gens hne hpreds hprev hrest ih =>
    intro hnd v hv
    have hnd' : ((done ++ gen) ++ gens.flatten).Nodup := by
      rw [List.append_assoc]
      simpa using hnd
    have hdisj : ∀ a ∈ gen, a ∉ gens.flatten := by
      intro a ha
      have h2 : (gen ++ gens.flatten).Nodup :=
        hnd.sublist (by simpa using List.sublist_append_right done (gen ++ gens.flatten))
      exact List.disjoint_of_nodup_append h2 ha
    simp only [List.flatten_cons, List.mem_append] at hv
    rcases hv with hv | hv
    · exact Or.inl (roundIdx_cons_self hv)
    · have hvgen : v ∉ gen := fun h => hdisj v h hv
      rcases ih hnd' v hv with h0 | ⟨u, hedge, humem, hidx⟩
      · cases hgens : gens with
        | nil =>
          rw [hgens] at hv
          exact absurd hv (by simp)
        | cons gen₂ rest₂ =>
          subst hgens
          have hv2 : v ∈ gen₂ := roundIdx_zero_mem h0 hv
          cases hrest with
          | cons _ _ _ _ hne₂ hpreds₂ hprev₂ hrest₂ =>
            rcases hprev₂ v hv2 with ⟨u, hu, huedge⟩ | ⟨h1, _⟩
            · refine Or.inr ⟨u, huedge, by simp [hu], ?_⟩
              rw [roundIdx_cons_self hu, roundIdx_cons_ne hvgen, h0]
            · exact absurd h1 hne
      · have hugen : u ∉ gen := fun h => hdisj u h humem
        refine Or.inr ⟨u, hedge, by simp [humem], ?_⟩
        rw [roundIdx_cons_ne hugen, roundIdx_cons_ne hvgen]
        omega

/-! ### Concrete graphs for the witnesses -/

/-- The diamond `A→B, A→C, B→D, C→D` from the spec's example scenarios. -/
def diamondGraph : Graph :=
  ⟨[("A", none), ("B", none), ("C", none), ("D", none)],
    [("A", "B"), ("A", "C"), ("B", "D"), ("C", "D")]⟩

/-- A ranking certifying that the diamond is acyclic. -/
def diamondRank : String → Nat := fun s => if s = "A" then 0 else if s = "D" then 2 else 1

/-- The two-node cycle `A→B, B→A`. -/
def cycleGraph : Graph := ⟨[("A", none), ("B", none)], [("A", "B"), ("B", "A")]⟩

/-- The chain `A→B→C` from the transitive-annotation example. -/
def chainGraph : Graph :=
  ⟨[("A", none), ("B", none), ("C", none)], [("A", "B"), ("B", "C")]⟩

/-- A ranking certifying that the chain is acyclic. -/
def chainRank : String → Nat := fun s => if s = "A" then 0 else if s = "B" then 1 else 2

/-! ### C1: coverage -/

/-- C1: on every well-formed acyclic dependency graph the scheduler produces a
round partition that covers the node set exactly: every node is in some round
and no node occurs twice across (or inside) rounds. -/
theorem claimC1 (g : Graph) (hwf : WF g) (hac : Acyclic g) :
    ∃ R, rounds g = .ok R ∧ (∀ v, v ∈ R.flatten ↔ v ∈ nodeKeys g) ∧ R.flatten.Nodup := by
  obtain ⟨gens, hok, _, hcov, hnd⟩ := rounds_ok_spec g hwf hac
  exact ⟨gens, hok, hcov, hnd⟩

theorem claimC1_witness :
    ∃ R, rounds diamondGraph = .ok R ∧
      (∀ v, v ∈ R.flatten ↔ v ∈ nodeKeys diamondGraph) ∧ R.flatten.Nodup :=
  claimC1 diamondGraph (by decide) (acyclic_of_rank diamondGraph diamondRank (by decide))

/-! ### C2: dependency satisfaction -/

/-- C2: for every edge `u → v` of a well-formed acyclic graph, the round of
`u` comes strictly before the round of `v`. -/
theorem claimC2 (g : Graph) (hwf : WF g) (hac : Acyclic g) :
    ∃ R, rounds g = .ok R ∧
      ∀ u v, (u, v) ∈ g.edges → roundIdx R u < roundIdx R v := by
  obtain ⟨gens, hok, hG, hcov, hnd⟩ := rounds_ok_spec g hwf hac
  refine ⟨gens, hok, ?_⟩
  intro u v hedge
  have hv : v ∈ gens.flatten := (hcov v).mpr (hwf.2.2 _ hedge).2
  rcases Gens_edge_lt g hG (by simpa using hnd) u v hedge hv with h | ⟨_, h2⟩
  · exact absurd h (by simp)
  · exact h2

theorem claimC2_witness :
    ∃ R, rounds diamondGraph = .ok R ∧
      ∀ u v, (u, v) ∈ diamondGraph.edges → roundIdx R u < roundIdx R v :=
  claimC2 diamondGraph (by decide) (acyclic_of_rank diamondGraph diamondRank (by decide))

/-! ### C3: canonical longest-path layering -/

/-- C3: on a well-formed acyclic graph the 1-based round index of every node is
1 plus the maximum round index of its direct predecessors (0 when it has
none), and the first round consists exactly of the nodes without
predecessors. -/
theorem claimC3 (g : Graph) (hwf : WF g) (hac : Acyclic g) :
    ∃ R, rounds g = .ok R ∧
      (∀ v ∈ nodeKeys g, roundIdx R v + 1 =
        ((predecessors g v).map (fun u => roundIdx R u + 1)).foldr max 0 + 1) ∧
      (∀ v, v ∈ R.headD [] ↔ v ∈ nodeKeys g ∧ predecessors g v = []) := by
  obtain ⟨gens, hok, hG, hcov, hnd⟩ := rounds_ok_spec g hwf hac
  refine ⟨gens, hok, ?_, ?_⟩
  · intro v hvk
    have hv : v ∈ gens.flatten := (hcov v).mpr hvk
    have hle : ((predecessors g v).map (fun u => roundIdx gens u + 1)).foldr max 0 ≤
        roundIdx gens v := by
      refine foldr_max_le ?_
      intro x hx
      obtain ⟨u, hu, hux⟩ := List.mem_map.mp hx
      have hedge := mem_predecessors.mp hu
      rcases Gens_edge_lt g hG (by simpa using hnd) u v hedge hv with h | ⟨_, h2⟩
      · exact absurd h (by simp)
      · omega
    have hge : roundIdx gens v ≤
        ((predecessors g v).map (fun u => roundIdx gens u + 1)).foldr max 0 := by
      rcases Gens_minimal g hG (by simpa using hnd) v hv with h0 | ⟨u, hedge, _, hidx⟩
      · omega
      · have hx : roundIdx gens u + 1 ∈
            (predecessors g v).map (fun u => roundIdx gens u + 1) :=
          List.mem_map.mpr ⟨u, mem_predecessors.mpr hedge, rfl⟩
        have := le_foldr_max hx
        omega
    omega
  · cases hgens : gens with
    | nil =>
      subst hgens
      intro v
      constructor
      · intro h
        exact absurd h (by simp)
      · rintro ⟨hk, _⟩
        exact absurd ((hcov v).mpr hk) (by simp)
    | cons gen rest =>
      subst hgens
      intro v
      constructor
      · intro hvg
        have hvf : v ∈ (gen :: rest).flatten := by simp [show v ∈ gen from hvg]
        refine ⟨(hcov v).mp hvf, ?_⟩
        cases hG with
        | cons _ _ _ _ hne hpreds hprev hrest =>
          rw [List.eq_nil_iff_forall_not_mem]
          intro u hu
          exact absurd (hpreds v hvg u (mem_predecessors.mp hu)) (by simp)
      · rintro ⟨hk, hpred⟩
        have hvf : v ∈ (gen :: rest).flatten := (hcov v).mpr hk
        rcases Gens_minimal g hG (by simpa using hnd) v hvf with h0 | ⟨u, hedge, _, _⟩
        · exact roundIdx_zero_mem h0 hvf
        · have hu : u ∈ predecessors g v := mem_predecessors.mpr hedge
          rw [hpred] at hu
          exact absurd hu (by simp)

theorem claimC3_witness :
    ∃ R, rounds diamondGraph = .ok R ∧
      (∀ v ∈ nodeKeys diamondGraph, roundIdx R v + 1 =
        ((predecessors diamondGraph v).map (fun u => roundIdx R u + 1)).foldr max 0 + 1) ∧
      (∀ v, v ∈ R.headD [] ↔
        v ∈ nodeKeys diamondGraph ∧ predecessors diamondGraph v = []) :=
  claimC3 diamondGraph (by decide) (acyclic_of_rank diamondGraph diamondRank (by decide))

/-! ### C4: cyclic graphs raise, but the message names no node -/

/-- C4 (amended): on a well-formed graph with a cycle, the scheduler raises
the library's `NetworkXUnfeasible` error and produces no rounds (the message
is the fixed string of `kahnErrorMessage`, which names no node). -/
theorem claimC4 (g : Graph) (hwf : WF g)
    (hcyc : ∃ v, Relation.TransGen (EdgeRel g) v v) :
    rounds g = .error .unfeasible := by
  unfold rounds sorted_issues
  rw [topGens_error_of_cycle g hwf hcyc]
  rfl

/-- C4 (counterexample to the claim as stated): the two-node cycle raises the
error, but the exception message contains neither of the two cycle nodes `A`
and `B` — it names no node of the cycle. -/
theorem claimC4_counterexample :
    Relation.TransGen (EdgeRel cycleGraph) ("A") ("A") ∧
      rounds cycleGraph = .error .unfeasible ∧
      ('A') ∉ (kahnErrorMessage KahnError.unfeasible).data ∧
      ('B') ∉ (kahnErrorMessage KahnError.unfeasible).data := by
  refine ⟨?_, by rfl, by decide, by decide⟩
  exact Relation.TransGen.tail
    (Relation.TransGen.single (show ("A", "B") ∈ cycleGraph.edges by decide))
    (show ("B", "A") ∈ cycleGraph.edges by decide)

theorem claimC4_witness : rounds cycleGraph = .error .unfeasible :=
  claimC4 cycleGraph (by decide)
    ⟨"A", Relation.TransGen.tail
      (Relation.TransGen.single (show ("A", "B") ∈ cycleGraph.edges by decide))
      (show ("B", "A") ∈ cycleGraph.edges by decide)⟩

/-! ### C9: no empty round is ever emitted -/

/-- C9: whenever the topological sort succeeds, the produced partition
contains no empty round; in particular the empty graph yields zero rounds. -/
theorem claimC9 :
    (∀ (g : Graph) (R : List (List String)), WF g → rounds g = .ok R → [] ∉ R) ∧
      rounds (⟨[], []⟩ : Graph) = .ok [] := by
  constructor
  · intro g R hwf hok
    obtain ⟨gens, htg⟩ : ∃ gens, topological_generations g = .ok gens := by
      unfold rounds sorted_issues at hok
      cases htg : topological_generations g with
      | ok gens => exact ⟨gens, rfl⟩
      | error e =>
        rw [htg] at hok
        cases hok
    rcases topological_generations_spec g hwf with ⟨gens', hok', hG, hcov, hnd⟩ | ⟨herr, _⟩
    · have hg : gens' = gens := by
        rw [htg] at hok'
        injection hok' with h
        exact h.symm
      subst hg
      have hR : R = gens' := by
        unfold rounds sorted_issues at hok
        rw [hok'] at hok
        have hok2 : Except.ok (roundsLoop g [] [] gens'.flatten) = Except.ok R := hok
        injection hok2 with h
        rw [← h]
        exact roundsLoop_top g gens' hG hnd
      subst hR
      exact Gens_ne_nil g hG
    · rw [herr] at htg
      cases htg
  · rfl

theorem claimC9_witness : [] ∉ [["X", "Y", "Z"]] :=
  claimC9.1 (⟨[("X", none), ("Y", none), ("Z", none)], []⟩ : Graph) [["X", "Y", "Z"]]
    (by decide) (by rfl)

/-! ### Reachability: the embedding of nx.transitive_closure is exact -/

/-- The set is closed under following edges. -/
def Closed (edges : List (String × String)) (s : List String) : Prop :=
  ∀ e ∈ edges, e.1 ∈ s → e.2 ∈ s

theorem mem_reachStep {edges : List (String × String)} {s : List String} {w : String} :
    w ∈ reachStep edges s ↔ w ∈ s ∨ ∃ e ∈ edges, e.1 ∈ s ∧ e.2 = w := by
  unfold reachStep
  rw [List.mem_dedup, List.mem_append, List.mem_map]
  constructor
  · rintro (h | ⟨e, he, hw⟩)
    · exact Or.inl h
    · have := List.mem_filter.mp he
      exact Or.inr ⟨e, this.1, by simpa using this.2, hw⟩
  · rintro (h | ⟨e, he, h1, h2⟩)
    · exact Or.inl h
    · exact Or.inr ⟨e, List.mem_filter.mpr ⟨he, by simpa using h1⟩, h2⟩

theorem subset_reachStep {edges : List (String × String)} {s : List String} :
    ∀ w ∈ s, w ∈ reachStep edges s :=
  fun w hw => mem_reachStep.mpr (Or.inl hw)

theorem subset_reachN {edges : List (String × String)} :
    ∀ (n : Nat) (s : List String) (w : String), w ∈ s → w ∈ reachN edges n s := by
  intro n
  induction n with
  | zero => intro s w hw; exact hw
  | succ n ih => intro s w hw; exact ih (reachStep edges s) w (subset_reachStep w hw)

theorem reachN_sound (g : Graph) :
    ∀ (n : Nat) (s : List String) (w : String), w ∈ reachN g.edges n s →
      ∃ u ∈ s, Relation.ReflTransGen (EdgeRel g) u w := by
  intro n
  induction n with
  | zero => intro s w hw; exact ⟨w, hw, Relation.ReflTransGen.refl⟩
  | succ n ih =>
    intro s w hw
    obtain ⟨u, hu, hrtg⟩ := ih (reachStep g.edges s) w hw
    rcases mem_reachStep.mp hu with h | ⟨e, he, h1, h2⟩
    · exact ⟨u, h, hrtg⟩
    · refine ⟨e.1, h1, Relation.ReflTransGen.head (show EdgeRel g e.1 u from ?_) hrtg⟩
      rw [← h2]
      exact he

theorem closed_propagate {g : Graph} {s : List String} (hc : Closed g.edges s) :
    ∀ {u w : String}, u ∈ s → Relation.ReflTransGen (EdgeRel g) u w → w ∈ s := by
  intro u w hu hrtg
  induction hrtg with
  | refl => exact hu
  | tail _ hedge ih => exact hc _ hedge ih

/-- Membership-equal lists have membership-equal reach sets. -/
theorem reachN_memEq {edges : List (String × String)} :
    ∀ (n : Nat) (s t : List String), (∀ w, w ∈ s ↔ w ∈ t) →
      ∀ w, w ∈ reachN edges n s ↔ w ∈ reachN edges n t := by
  intro n
  induction n with
  | zero => intro s t h w; exact h w
  | succ n ih =>
    intro s t h w
    refine ih (reachStep edges s) (reachStep edges t) ?_ w
    intro x
    rw [mem_reachStep, mem_reachStep]
    constructor
    · rintro (h1 | ⟨e, he, h1, h2⟩)
      · exact Or.inl ((h x).mp h1)
      · exact Or.inr ⟨e, he, (h e.1).mp h1, h2⟩
    · rintro (h1 | ⟨e, he, h1, h2⟩)
      · exact Or.inl ((h x).mpr h1)
      · exact Or.inr ⟨e, he, (h e.1).mpr h1, h2⟩

theorem closed_reachN_memEq {g : Graph} {s : List String} (hc : Closed g.edges s) :
    ∀ (n : Nat) (w : String), w ∈ reachN g.edges n s ↔ w ∈ s := by
  intro n
  induction n with
  | zero => intro w; exact Iff.rfl
  | succ n ih =>
    intro w
    have hstep : ∀ x, x ∈ reachStep g.edges s ↔ x ∈ s := by
      intro x
      rw [mem_reachStep]
      constructor
      · rintro (h | ⟨e, he, h1, h2⟩)
        · exact h
        · exact h2 ▸ hc e he h1
      · exact Or.inl
    rw [show reachN g.edges (n + 1) s = reachN g.edges n (reachStep g.edges s) from rfl]
    rw [reachN_memEq n (reachStep g.edges s) s hstep w]
    exact ih w

theorem reachN_grow_or_closed (g : Graph) (hwft : ∀ e ∈ g.edges, e.2 ∈ nodeKeys g)
    (u₀ : String) :
    ∀ (n : Nat) (s : List String), (∀ w ∈ s, w ∈ u₀ :: nodeKeys g) →
      (Closed g.edges (reachN g.edges n s) ∧
        (∀ w ∈ reachN g.edges n s, w ∈ u₀ :: nodeKeys g)) ∨
      s.toFinset.card + n ≤ (reachN g.edges n s).toFinset.card := by
  intro n
  induction n with
  | zero =>
    intro s hs
    by_cases hc : Closed g.edges s
    · exact Or.inl ⟨hc, hs⟩
    · refine Or.inr ?_
      show s.toFinset.card + 0 ≤ s.toFinset.card
      omega
  | succ n ih =>
    intro s hs
    have hsub : ∀ w ∈ reachStep g.edges s, w ∈ u₀ :: nodeKeys g := by
      intro w hw
      rcases mem_reachStep.mp hw with h | ⟨e, he, _, h2⟩
      · exact hs w h
      · exact h2 ▸ (by simp [hwft e he])
    by_cases hc : Closed g.edges s
    · left
      have hstep : ∀ x, x ∈ reachStep g.edges s ↔ x ∈ s := by
        intro x
        rw [mem_reachStep]
        constructor
        · rintro (h | ⟨e, he, h1, h2⟩)
          · exact h
          · exact h2 ▸ hc e he h1
        · exact Or.inl
      have hmemeq : ∀ w, w ∈ reachN g.edges (n + 1) s ↔ w ∈ s := closed_reachN_memEq hc (n + 1)
      constructor
      · intro e he h1
        exact (hmemeq e.2).mpr (hc e he ((hmemeq e.1).mp h1))
      · intro w hw
        exact hs w ((hmemeq w).mp hw)
    · rcases ih (reachStep g.edges s) hsub with h | h
      · exact Or.inl h
      · right
        have hgrow : s.toFinset.card + 1 ≤ (reachStep g.edges s).toFinset.card := by
          have hssub : s.toFinset ⊂ (reachStep g.edges s).toFinset := by
            rw [Finset.ssubset_iff_of_subset]
            · unfold Closed at hc
              push_neg at hc
              obtain ⟨e, he, h1, h2⟩ := hc
              exact ⟨e.2, List.mem_toFinset.mpr (mem_reachStep.mpr (Or.inr ⟨e, he, h1, rfl⟩)),
                fun hmem => h2 (List.mem_toFinset.mp hmem)⟩
            · intro x hx
              exact List.mem_toFinset.mpr (subset_reachStep x (List.mem_toFinset.mp hx))
          exact Finset.card_lt_card hssub
        calc s.toFinset.card + (n + 1) = (s.toFinset.card + 1) + n := by omega
          _ ≤ (reachStep g.edges s).toFinset.card + n := by omega
          _ ≤ (reachN g.edges n (reachStep g.edges s)).toFinset.card := h
          _ = (reachN g.edges (n + 1) s).toFinset.card := rfl

theorem reachN_subset_universe (g : Graph) (hwft : ∀ e ∈ g.edges, e.2 ∈ nodeKeys g)
    (u₀ : String) :
    ∀ (n : Nat) (s : List String), (∀ w ∈ s, w ∈ u₀ :: nodeKeys g) →
      ∀ w ∈ reachN g.edges n s, w ∈ u₀ :: nodeKeys g := by
  intro n
  induction n with
  | zero => intro s hs; exact hs
  | succ n ih =>
    intro s hs
    refine ih (reachStep g.edges s) ?_
    intro w hw
    rcases mem_reachStep.mp hw with h | ⟨e, he, _, h2⟩
    · exact hs w h
    · exact h2 ▸ (by simp [hwft e he])

theorem reachN_closed_full (g : Graph) (hwft : ∀ e ∈ g.edges, e.2 ∈ nodeKeys g)
    (u : String) :
    Closed g.edges (reachN g.edges ((nodeKeys g).length + 1) [u]) := by
  rcases reachN_grow_or_closed g hwft u ((nodeKeys g).length + 1) [u]
      (by intro w hw; simp at hw; simp [hw]) with ⟨hc, _⟩ | h
  · exact hc
  · exfalso
    have hbound : (reachN g.edges ((nodeKeys g).length + 1) [u]).toFinset.card ≤
        (nodeKeys g).length + 1 := by
      calc (reachN g.edges ((nodeKeys g).length + 1) [u]).toFinset.card
          ≤ (u :: nodeKeys g).toFinset.card := by
            refine Finset.card_le_card ?_
            intro x hx
            refine List.mem_toFinset.mpr ?_
            exact reachN_subset_universe g hwft u _ [u]
              (by intro w hw; simp at hw; simp [hw]) x (List.mem_toFinset.mp hx)
        _ ≤ (u :: nodeKeys g).length := List.toFinset_card_le _
        _ = (nodeKeys g).length + 1 := by simp
    have hcard1 : ([u] : List String).toFinset.card = 1 := by simp
    omega

theorem descendants_spec (g : Graph) (hwft : ∀ e ∈ g.edges, e.2 ∈ nodeKeys g)
    (u : String) :
    ∀ v, v ∈ descendants g u ↔ (Relation.ReflTransGen (EdgeRel g) u v ∧ v ≠ u) := by
  intro v
  unfold descendants
  rw [List.mem_filter]
  constructor
  · rintro ⟨hr, hne⟩
    obtain ⟨w, hw, hrtg⟩ := reachN_sound g ((nodeKeys g).length + 1) [u] v hr
    rw [List.mem_singleton] at hw
    subst hw
    exact ⟨hrtg, by simpa using hne⟩
  · rintro ⟨hrtg, hne⟩
    refine ⟨?_, by simpa using hne⟩
    exact closed_propagate (reachN_closed_full g hwft u)
      (subset_reachN ((nodeKeys g).length + 1) [u] u (by simp)) hrtg

theorem mem_insertSorted {x a : String} :
    ∀ {l : List String}, x ∈ insertSorted a l ↔ x = a ∨ x ∈ l := by
  intro l
  induction l with
  | nil => simp [insertSorted]
  | cons y ys ih =>
    rw [insertSorted]
    split
    · simp
    · rw [List.mem_cons, List.mem_cons, ih]
      tauto

theorem mem_sortStrings {x : String} : ∀ {l : List String}, x ∈ sortStrings l ↔ x ∈ l := by
  intro l
  induction l with
  | nil => exact Iff.rfl
  | cons a t ih =>
    show x ∈ insertSorted a (sortStrings t) ↔ _
    rw [mem_insertSorted, ih, List.mem_cons]

theorem transGen_head_edge {g : Graph} {a b : String}
    (htg : Relation.TransGen (EdgeRel g) a b) : ∃ c, (a, c) ∈ g.edges := by
  induction htg with
  | single h => exact ⟨_, h⟩
  | tail _ _ ih => exact ih

/-- C8: on a well-formed acyclic graph, the reported transitive-only
predecessor list of `v` holds exactly the nodes `u` with a (necessarily
indirect) nonempty path `u →⁺ v` and no direct edge `u → v`. -/
theorem claimC8 (g : Graph) (hwf : WF g) (hac : Acyclic g) (v : String) :
    ∀ u, u ∈ transitive_dependencies true g v ↔
      (Relation.TransGen (EdgeRel g) u v ∧ (u, v) ∉ g.edges) := by
  intro u
  unfold transitive_dependencies
  rw [if_pos rfl, mem_sortStrings, List.mem_dedup, List.mem_filter]
  unfold transitiveClosurePreds
  rw [List.mem_filter]
  have hdesc := descendants_spec g (fun e he => (hwf.2.2 e he).2) u v
  constructor
  · rintro ⟨⟨huk, hvd⟩, hnp⟩
    obtain ⟨hrtg, hne⟩ := hdesc.mp (by simpa using hvd)
    refine ⟨?_, ?_⟩
    · rcases Relation.reflTransGen_iff_eq_or_transGen.mp hrtg with h | h
      · exact absurd h hne
      · exact h
    · intro hmem
      simp only [decide_eq_true_eq] at hnp
      exact hnp (mem_predecessors.mpr hmem)
  · rintro ⟨htg, hnedge⟩
    have hne : v ≠ u := by
      intro h
      exact hac u (h ▸ htg)
    have huk : u ∈ nodeKeys g := by
      obtain ⟨c, hc⟩ := transGen_head_edge htg
      exact (hwf.2.2 (u, c) hc).1
    refine ⟨⟨huk, ?_⟩, ?_⟩
    · simpa using hdesc.mpr ⟨htg.to_reflTransGen, hne⟩
    · simp only [decide_eq_true_eq]
      intro hmem
      exact hnedge (mem_predecessors.mp hmem)

theorem claimC8_witness :
    ("A") ∈ transitive_dependencies true chainGraph ("C") ∧
      transitive_dependencies true chainGraph ("C") = ["A"] ∧
      predecessors chainGraph ("C") = ["B"] :=
  ⟨(claimC8 chainGraph (by decide)
      (acyclic_of_rank chainGraph chainRank (by decide)) ("C") ("A")).mpr
    ⟨Relation.TransGen.tail
      (Relation.TransGen.single (show ("A", "B") ∈ chainGraph.edges by decide))
      (show ("B", "C") ∈ chainGraph.edges by decide), by decide⟩,
   by decide, by decide⟩

end JiraTools
